import Mathlib

/-
Verification of the skip-list / block-arena repository (mini-realization).

Shallow embedding of:
  src/data_structures/skip_list2/src/arena.rs      (block arena)
  src/data_structures/skip_list2/src/skip_list.rs  (skip list + iterator)

Modelling conventions:
  * Raw pointers into arena memory are modelled as natural-number addresses.
  * Skip-list node pointers are modelled as indices into an append-only node
    store (the arena only ever hands out fresh storage and never frees), with
    "Option Nat" for a possibly-null pointer (none = null).
  * Rust panics (failed assert macros, null dereference) are modelled as the
    error side of Except / as none.
  * The comparator is an external collaborator (crate::comparator is not part
    of the two source files); keys are instantiated at Int with the natural
    total order, per the spec's comparator contract (a total order).
  * The random height source is external (rand crate); the sampled height is
    passed as an explicit argument, constrained to the interval [1, MAX_HEIGHT]
    that random_height guarantees.
  * Atomics: all atomic loads/stores in the source use SeqCst and the claims
    under verification are sequential properties, so state is threaded
    explicitly and the compare-exchange in insert is modelled exactly
    (compare current slot value with the expected value, store on equality).
-/

namespace SkipRepo

/-! # Block arena (arena.rs) -/

/-- Constant ITEM_SIZE from arena.rs line 60: size_of::<u64>() = 8. -/
def ITEM_SIZE : Nat := 8

/-- Constant BLOCK_SIZE from arena.rs line 61: 4096 / ITEM_SIZE. -/
def BLOCK_SIZE : Nat := 4096 / ITEM_SIZE

/-- Constant NO_BLOCK_LIMIT from arena.rs line 62: BLOCK_SIZE / 4 * ITEM_SIZE. -/
def NO_BLOCK_LIMIT : Nat := BLOCK_SIZE / 4 * ITEM_SIZE

/-- Power-of-two test, modelling usize::is_power_of_two (used by the assert in
align_up, arena.rs line 135): n is a power of two iff n = 2 ^ k for some
k ≤ n (a bounded search keeps the model fully executable). -/
def is_power_of_two (n : Nat) : Bool :=
  (List.range (n + 1)).any (fun k => n == 2 ^ k)

/-- Model of align_up (arena.rs lines 134-138): for a byte pointer, Rust's
ptr.align_offset(align) with a power-of-two align is
(align - addr % align) % align.  Returns (slop, ptr.wrapping_add(slop)).
The assert that align is a power of two is modelled as a guard in alloc. -/
def align_up (p a : Nat) : Nat × Nat :=
  let slop := (a - p % a) % a
  (slop, p + slop)

/-- State of BlockArenaInner (arena.rs lines 64-69).  Each owned slab
(Vec of u64) is recorded as (base address, byte length); ptr is the bump
cursor address; memory_usage models the AtomicUsize counter. -/
structure BlockArenaInner where
  mems : List (Nat × Nat)
  ptr : Nat
  remaining_size : Nat
  memory_usage : Nat
deriving DecidableEq

/-- Arena panic outcomes (failed assert). -/
inductive ArenaErr where
  | assertFail
deriving DecidableEq

/-- Model of BlockArenaInner::reload_block (arena.rs lines 102-114): push a
fresh standard slab of BLOCK_SIZE items (base address supplied by the host
heap), point the cursor at its base, reset remaining_size to its byte
capacity and bump the usage counter. -/
def reload_block (st : BlockArenaInner) (base : Nat) : BlockArenaInner :=
  let cap := BLOCK_SIZE * ITEM_SIZE
  { mems := st.mems ++ [(base, cap)],
    ptr := base,
    remaining_size := cap,
    memory_usage := st.memory_usage + cap }

/-- Model of BlockArenaInner::alloc_new_block (arena.rs lines 116-127): push a
dedicated slab of ceil(byte_size / ITEM_SIZE) items, bump the usage counter by
its byte length, and return its base pointer; cursor and remaining_size are
not touched. -/
def alloc_new_block (st : BlockArenaInner) (byte_size base : Nat) :
    Nat × BlockArenaInner :=
  let size := (byte_size + ITEM_SIZE - 1) / ITEM_SIZE
  let len := size * ITEM_SIZE
  (base, { st with mems := st.mems ++ [(base, len)],
                   memory_usage := st.memory_usage + len })

/-- Model of BlockArenaInner::alloc (arena.rs lines 72-100).  freshBase is the
base address the host heap would hand to the Vec if this call allocates a new
slab (at most one slab per call); Rust guarantees it to be a multiple of
ITEM_SIZE = align_of::<u64>(), and hypotheses of the theorems below record
that.  The error side models the panics of the asserts (power-of-two in
align_up; need <= remaining_size after a reload, arena.rs line 88). -/
def alloc (st : BlockArenaInner) (size align freshBase : Nat) :
    Except ArenaErr (Nat × BlockArenaInner) :=
  if is_power_of_two align = false then .error .assertFail else
  let tail := st.ptr
  let sa := align_up tail align
  let need := sa.1 + size
  if NO_BLOCK_LIMIT < need then
    .ok (alloc_new_block st size freshBase)
  else if st.remaining_size < need then
    let st1 := reload_block st freshBase
    let tail1 := st1.ptr
    let sa1 := align_up tail1 align
    let need1 := sa1.1 + size
    if st1.remaining_size < need1 then .error .assertFail
    else
      .ok (sa1.2,
        { st1 with
          ptr := sa1.2 + size,
          remaining_size := st1.remaining_size - need1 })
  else
    .ok (sa.2,
      { st with
        ptr := sa.2 + size,
        remaining_size := st.remaining_size - need })

/-- Model of BlockArena::new (arena.rs lines 149-158): no slabs,
cursor = NonNull::dangling() for u8 (address 1 = align_of::<u8>()),
zero remaining, zero usage. -/
def arenaNew : BlockArenaInner :=
  { mems := [], ptr := 1, remaining_size := 0, memory_usage := 0 }

/-- A sequence of alloc calls (size, align, freshBase per call), threading the
arena state and discarding the returned pointers. -/
def allocSeq (st : BlockArenaInner) :
    List (Nat × Nat × Nat) → Except ArenaErr BlockArenaInner
  | [] => .ok st
  | r :: rs =>
    match alloc st r.1 r.2.1 r.2.2 with
    | .error e => .error e
    | .ok (_, st') => allocSeq st' rs

/-! # Skip list (skip_list.rs) -/

/-- Constant MAX_HEIGHT from skip_list.rs line 15. -/
def MAX_HEIGHT : Nat := 20


/-- Model of Node (skip_list.rs lines 17-22): key, value, and the tower of
forward pointers.  Node pointers are modelled as Nat indices into the
append-only node store; a nullable pointer is Option Nat with none = null.  The Rust allocation is truncated to the node's height, so
the model stores a tower list of exactly that height (reading or writing a
slot beyond it would be undefined behaviour in the source). -/
structure Node where
  key : Int
  value : Int
  tower : List (Option Nat)
deriving DecidableEq

/-- Model of SkipList (skip_list.rs lines 61-66): the head sentinel is the
node at index 0 of the store; height models the AtomicUsize. -/
structure SkipList where
  nodes : List Node
  height : Nat
deriving DecidableEq

/-- Modelled from the spec: the comparator (crate::comparator, a file not
under src/) is an externally supplied total order consumed only through
compare(a, b) -> Less | Equal | Greater.  Keys are instantiated at Int with
its natural order. -/
def icmp (a b : Int) : Ordering :=
  if a < b then .lt else if a = b then .eq else .gt

/-- Model of Node::get_next (skip_list.rs lines 25-27): load tower[level].
Out-of-store or out-of-tower reads return none; the invariants show they do
not occur on reachable states. -/
def get_next (s : SkipList) (i : Nat) (level : Nat) : Option Nat :=
  match s.nodes[i]? with
  | none => none
  | some n =>
    match n.tower[level]? with
    | none => none
    | some p => p

/-- Model of Node::set_next (skip_list.rs lines 29-31): store tower[level]. -/
def set_next (s : SkipList) (i : Nat) (level : Nat) (p : Option Nat) :
    SkipList :=
  match s.nodes[i]? with
  | none => s
  | some n =>
    { s with nodes := s.nodes.set i { n with tower := n.tower.set level p } }

/-- Key field of the node at index i (0 when i is not a node, which the
invariants exclude wherever it is read). -/
def keyOf (s : SkipList) (i : Nat) : Int :=
  match s.nodes[i]? with
  | none => 0
  | some n => n.key

/-- Value field of the node at index i. -/
def valueOf (s : SkipList) (i : Nat) : Int :=
  match s.nodes[i]? with
  | none => 0
  | some n => n.value

/-- Height (tower length) of the node at index i. -/
def towerLen (s : SkipList) (i : Nat) : Nat :=
  match s.nodes[i]? with
  | none => 0
  | some n => n.tower.length

/-- Model of SkipList::new (skip_list.rs lines 73-82) with
Node::new_head (lines 56-58): store holding only the head sentinel (zeroed
key and value, MAX_HEIGHT zero-filled tower slots), height 1. -/
def skipListNew : SkipList :=
  { nodes := [{ key := 0, value := 0, tower := List.replicate MAX_HEIGHT none }],
    height := 1 }

/-- Model of SkipList::find_node_prev_next (skip_list.rs lines 236-257):
walk level `level` from `cur`, returning (prev, next) pairs exactly as the
source: (cur, null) when null is hit, (next, next) on an Equal comparison,
(cur, next) on Greater.  The first argument after the key is fuel (the Rust
loop terminates because chains are finite; the outer none is fuel
exhaustion, shown unreachable on well-formed states). -/
def find_node_prev_next (s : SkipList) (k : Int) :
    Nat → Nat → Nat → Option (Nat × Option Nat)
  | 0, _, _ => none
  | fuel+1, cur, level =>
    match get_next s cur level with
    | none => some (cur, none)
    | some nxt =>
      match icmp (keyOf s nxt) k with
      | .lt => find_node_prev_next s k fuel nxt level
      | .eq => some (nxt, some nxt)
      | .gt => some (cur, some nxt)

/-- Model of std::ops::Bound as used by find_near. -/
inductive KeyBound where
  | included (k : Int)
  | excluded (k : Int)
  | unbounded
deriving DecidableEq

/-- Model of the main loop of SkipList::find_near (skip_list.rs lines
117-170).  State is (fuel, cur, level); k = none is the Unbounded find-last
mode (key destructured to None).  The branch structure mirrors the source
line by line, including the down_level macro (descend and continue when
level > 0).  includeed is the source's own spelling. -/
def findNearAux (s : SkipList) (k : Option Int) (includeed rev : Bool) :
    Nat → Nat → Nat → Option (Option Nat)
  | 0, _, _ => none
  | fuel+1, cur, level =>
    match get_next s cur level with
    | none =>
      if 0 < level then findNearAux s k includeed rev fuel cur (level - 1)
      else if cur == 0 || !rev then some none
      else some (some cur)
    | some nxt =>
      match k with
      | none => findNearAux s k includeed rev fuel nxt level
      | some kk =>
        match icmp kk (keyOf s nxt) with
        | .lt =>
          if 0 < level then findNearAux s k includeed rev fuel cur (level - 1)
          else if !rev then some (some nxt)
          else if cur == 0 then some none
          else some (some cur)
        | .eq =>
          if includeed then some (some nxt)
          else if !rev then some (get_next s nxt 0)
          else if 0 < level then findNearAux s k includeed rev fuel cur (level - 1)
          else if cur == 0 then some none
          else some (some cur)
        | .gt => findNearAux s k includeed rev fuel nxt level

/-- Model of SkipList::find_near (skip_list.rs lines 88-172): dispatch on the
bound (Unbounded + reverse returns head.get_next(0) before the loop), then
run the loop from the head at level height - 1.  The fuel is sufficient on
well-formed states (proved below). -/
def find_near (s : SkipList) (k : KeyBound) (rev : Bool) :
    Option (Option Nat) :=
  let fuel := s.height * (s.nodes.length + 1) + 1
  match k with
  | .included kk => findNearAux s (some kk) true rev fuel 0 (s.height - 1)
  | .excluded kk => findNearAux s (some kk) false rev fuel 0 (s.height - 1)
  | .unbounded =>
    if rev then some (get_next s 0 0)
    else findNearAux s none false rev fuel 0 (s.height - 1)

/-- Insertion panic / model-artifact outcomes. -/
inductive InsErr where
  | assertNe  -- assert_ne!(prev[level], next[level]), skip_list.rs line 190
  | fuelOut   -- model fuel exhaustion (unreachable on well-formed states)
  | nullDeref -- model artifact: reading a null start pointer
deriving DecidableEq

/-- Model of the top-down phase of SkipList::insert (skip_list.rs lines
183-191): for level = c-1 down to 0, (prev[level], next[level]) =
find_node_prev_next(key, prev[level+1], level), then
assert_ne!(prev[level], next[level]) — the assert fires exactly when the
find returned the (next, next) Equal form, i.e. n = some p. -/
def phase1 (s : SkipList) (k : Int) :
    Nat → List (Option Nat) → List (Option Nat) →
    Except InsErr (List (Option Nat) × List (Option Nat))
  | 0, prev, nxt => .ok (prev, nxt)
  | c+1, prev, nxt =>
    match (prev[c+1]?).getD none with
    | none => .error .nullDeref
    | some start =>
      match find_node_prev_next s k (s.nodes.length + 1) start c with
      | none => .error .fuelOut
      | some (p, n) =>
        if n = some p then .error .assertNe
        else phase1 s k c (prev.set c (some p)) (nxt.set c n)

/-- Model of the inner loop of SkipList::insert for one level (skip_list.rs
lines 209-231): if prev[level] is null recompute from the head; publish
next[level] into the new node's slot; compare-and-swap prev[level]'s forward
pointer from next[level] to the new node; on CAS failure recompute from
prev[level] and retry. -/
def linkLevel (s : SkipList) (k : Int) (nid : Nat) (level : Nat) :
    Nat → Option Nat → Option Nat → Except InsErr SkipList
  | 0, _, _ => .error .fuelOut
  | fuel+1, prevl, nextl =>
    match (if prevl.isNone
           then find_node_prev_next s k (s.nodes.length + 1) 0 level
           else some (prevl.getD 0, nextl)) with
    | none => .error .fuelOut
    | some (p, n) =>
      let s1 := set_next s nid level n
      if get_next s1 p level = n then
        .ok (set_next s1 p level (some nid))
      else
        match find_node_prev_next s1 k (s1.nodes.length + 1) p level with
        | none => .error .fuelOut
        | some (p2, n2) => linkLevel s1 k nid level fuel (some p2) n2

/-- Model of the bottom-up splicing phase of SkipList::insert (skip_list.rs
lines 205-233): for level = 0 up to height-1 of the new node, run the inner
loop. -/
def phase2 (s : SkipList) (k : Int) (nid : Nat)
    (prev nxt : List (Option Nat)) : Nat → Nat → Except InsErr SkipList
  | _, 0 => .ok s
  | level, c+1 =>
    match linkLevel s k nid level (s.nodes.length + 2)
        ((prev[level]?).getD none) ((nxt[level]?).getD none) with
    | .error e => .error e
    | .ok s' => phase2 s' k nid prev nxt (level+1) c

/-- Model of SkipList::insert (skip_list.rs lines 182-234).  h is the height
sampled by random_height (an external uniform source; the value is always in
[1, MAX_HEIGHT]).  prev/next are the MAX_HEIGHT+1 pointer arrays initialised
to null with prev[H] = head.  The node is allocated (appended to the store)
after the top-down phase; the height compare-exchange loop always succeeds
sequentially, giving height = max(H, h). -/
def insert (s : SkipList) (k v : Int) (h : Nat) : Except InsErr SkipList :=
  let H := s.height
  let prev0 := (List.replicate (MAX_HEIGHT + 1) (none : Option Nat)).set H
    (some 0)
  let next0 := List.replicate (MAX_HEIGHT + 1) (none : Option Nat)
  match phase1 s k H prev0 next0 with
  | .error e => .error e
  | .ok (prev, nxt) =>
    let nid := s.nodes.length
    let s1 : SkipList :=
      { nodes :=
          s.nodes ++ [{ key := k, value := v, tower := List.replicate h none }],
        height := if H < h then h else H }
    phase2 s1 k nid prev nxt 0 h

/-- A sequence of insert calls threading the list state; error = some insert
panicked. -/
def insertOps (s : SkipList) : List (Int × Int × Nat) → Except InsErr SkipList
  | [] => .ok s
  | t :: ts =>
    match insert s t.1 t.2.1 t.2.2 with
    | .error e => .error e
    | .ok s' => insertOps s' ts

/-- Build a list from SkipList::new by a sequence of (key, value, height)
insertions. -/
def insertList (ops : List (Int × Int × Nat)) : Except InsErr SkipList :=
  insertOps skipListNew ops

/-! ## Iterator (skip_list.rs lines 292-352) -/

/-- Model of SkipListIter (skip_list.rs lines 292-295): the Arc to the list
is passed explicitly to each operation; cur is the nullable cursor. -/
structure SkipListIter where
  cur : Option Nat
deriving DecidableEq

/-- Model of SkipListIter::new (lines 302-307): cursor starts null. -/
def SkipListIter.new : SkipListIter := ⟨none⟩

/-- Model of SkipListIter::is_valid (lines 309-311): cursor is non-null. -/
def SkipListIter.is_valid (it : SkipListIter) : Bool := it.cur.isSome

/-- Model of SkipListIter::key (lines 313-319): Some of the current node's
key when valid, None otherwise. -/
def SkipListIter.key (s : SkipList) (it : SkipListIter) : Option Int :=
  if it.is_valid then it.cur.map (keyOf s) else none

/-- Model of SkipListIter::value (lines 321-327). -/
def SkipListIter.value (s : SkipList) (it : SkipListIter) : Option Int :=
  if it.is_valid then it.cur.map (valueOf s) else none

/-- Model of SkipListIter::next (lines 329-332): assert!(is_valid()) — a call
on an invalid cursor panics (none); otherwise advance along level 0. -/
def SkipListIter.next (s : SkipList) (it : SkipListIter) :
    Option SkipListIter :=
  match it.cur with
  | none => none
  | some i => some ⟨get_next s i 0⟩

/-- Model of SkipListIter::prev (lines 334-339): assert!(is_valid()), then
re-seek with find_near(Excluded(current key), reverse = true). -/
def SkipListIter.prev (s : SkipList) (it : SkipListIter) :
    Option SkipListIter :=
  match it.cur with
  | none => none
  | some i => (find_near s (.excluded (keyOf s i)) true).map (⟨·⟩)

/-- Model of SkipListIter::seek_to_first (lines 341-343) via
SkipList::find_first (lines 178-180). -/
def SkipListIter.seek_to_first (s : SkipList) : Option SkipListIter :=
  (find_near s .unbounded true).map (⟨·⟩)

/-- Model of SkipListIter::seek_to_last (lines 345-347) via
SkipList::find_last (lines 174-176). -/
def SkipListIter.seek_to_last (s : SkipList) : Option SkipListIter :=
  (find_near s .unbounded false).map (⟨·⟩)

/-- Model of SkipListIter::seek (lines 349-351):
find_near(Included(key), reverse = false). -/
def SkipListIter.seek (s : SkipList) (k : Int) : Option SkipListIter :=
  (find_near s (.included k) false).map (⟨·⟩)

/-- Model of the Drop impl for SkipList (skip_list.rs lines 268-280), exactly
as written: cur starts at the head's level-0 successor; the loop guard is
`while cur.is_null()`, so when cur is null the body runs and immediately
dereferences the null cur (modelled none = undefined behaviour / crash), and
when cur is non-null the loop exits at once having run no destructor
(modelled some of the list of destructed nodes, which is empty). -/
def dropRun (s : SkipList) : Option (List Nat) :=
  match get_next s 0 0 with
  | some _ => some []
  | none => none

/-- Forward traversal: visit (key, value) of the current node then advance
along level 0, until the cursor is invalid (the loop shape of the source's
own tests, skip_list.rs lines 375-381).  Fuel-based; none = non-termination
within fuel, unreachable on well-formed states. -/
def traverseFrom (s : SkipList) : Nat → Option Nat → Option (List (Int × Int))
  | 0, none => some []
  | _+1, none => some []
  | 0, some _ => none
  | fuel+1, some i =>
    (traverseFrom s fuel (get_next s i 0)).map
      (fun l => (keyOf s i, valueOf s i) :: l)

/-- The full forward traversal from seek_to_first. -/
def traversal (s : SkipList) : Option (List (Int × Int)) :=
  match SkipListIter.seek_to_first s with
  | none => none
  | some it => traverseFrom s s.nodes.length it.cur

/-- n repeated calls of SkipListIter::next (none = some call panicked). -/
def nextN (s : SkipList) : Nat → SkipListIter → Option SkipListIter
  | 0, it => some it
  | n+1, it =>
    match SkipListIter.next s it with
    | none => none
    | some it' => nextN s n it'

/-! ## Derived data about insertion sequences -/

/-- Keys of an insertion sequence. -/
def opKeys (ops : List (Int × Int × Nat)) : List Int := ops.map (·.1)

/-- The (key, value) pairs of an insertion sequence. -/
def opPairs (ops : List (Int × Int × Nat)) : List (Int × Int) :=
  ops.map (fun t => (t.1, t.2.1))

/-- All sampled heights lie in [1, MAX_HEIGHT], as random_height
(skip_list.rs lines 283-290) guarantees. -/
def heightsOk (ops : List (Int × Int × Nat)) : Prop :=
  ∀ t ∈ ops, 1 ≤ t.2.2 ∧ t.2.2 ≤ MAX_HEIGHT

/-! ## Well-formedness: the per-level chains -/

/-- The list l is the chain of nodes reachable from p along level `level`:
each element is the forward pointer of its predecessor and the last points to
null. -/
def isChain (s : SkipList) (level : Nat) : Nat → List Nat → Prop
  | p, [] => get_next s p level = none
  | p, x :: xs => get_next s p level = some x ∧ isChain s level x xs

/-- Invariant of a reachable skip list, with ch giving the chain of every
level: chains are linked, strictly key-sorted, nested (level+1 is a subset of
level), consist of real non-head nodes tall enough for their level, and are
empty at and above the current height. -/
structure Inv (s : SkipList) (ch : Nat → List Nat) : Prop where
  chain : ∀ level, isChain s level 0 (ch level)
  sorted : ∀ level, (ch level).Pairwise (fun a b => keyOf s a < keyOf s b)
  sub : ∀ level x, x ∈ ch (level+1) → x ∈ ch level
  ne0 : ∀ level x, x ∈ ch level → x ≠ 0
  ltLen : ∀ level x, x ∈ ch level → x < s.nodes.length
  tall : ∀ level x, x ∈ ch level → level < towerLen s x
  high : ∀ level, s.height ≤ level → ch level = []

/-- Basic shape facts: height in [1, MAX_HEIGHT], the head is a real node
with a full tower. -/
def wfBase (s : SkipList) : Prop :=
  1 ≤ s.height ∧ s.height ≤ MAX_HEIGHT ∧ towerLen s 0 = MAX_HEIGHT ∧
    0 < s.nodes.length

/-- The strict lower part of a chain with respect to a key: the longest
leading run of nodes whose keys are below k. -/
def lowSeg (s : SkipList) (k : Int) (l : List Nat) : List Nat :=
  l.takeWhile (fun i => decide (keyOf s i < k))

/-- The rest of the chain: nodes from the first whose key is not below k. -/
def highSeg (s : SkipList) (k : Int) (l : List Nat) : List Nat :=
  l.dropWhile (fun i => decide (keyOf s i < k))

/-- The splice point predecessor for key k in chain l (the head 0 when no
node key is below k). -/
def prevAt (s : SkipList) (k : Int) (l : List Nat) : Nat :=
  (lowSeg s k l).getLastD 0

/-- The splice point successor for key k in chain l (none when every node
key is below k). -/
def nextAt (s : SkipList) (k : Int) (l : List Nat) : Option Nat :=
  (highSeg s k l).head?

/-- The chain l with nid spliced in at the boundary for key k. -/
def spliced (s : SkipList) (k : Int) (nid : Nat) (l : List Nat) :
    List Nat :=
  lowSeg s k l ++ nid :: highSeg s k l

/-- The (key, value) pairs of the nodes of l. -/
def pairsOf (s : SkipList) (l : List Nat) : List (Int × Int) :=
  l.map (fun i => (keyOf s i, valueOf s i))

/-! # Proofs -/

/-! ## Comparator facts -/

theorem icmp_eq_lt {a b : Int} : icmp a b = .lt ↔ a < b := by
  unfold icmp; split_ifs with h1 h2 <;> simp <;> omega

theorem icmp_eq_eq {a b : Int} : icmp a b = .eq ↔ a = b := by
  unfold icmp; split_ifs with h1 h2 <;> simp <;> omega

theorem icmp_eq_gt {a b : Int} : icmp a b = .gt ↔ b < a := by
  unfold icmp; split_ifs with h1 h2 <;> simp <;> omega

/-! ## State-mutation lemmas -/

theorem nodes_length_set_next (s : SkipList) (i level : Nat) (p : Option Nat) :
    (set_next s i level p).nodes.length = s.nodes.length := by
  unfold set_next
  cases h : s.nodes[i]? <;> simp

theorem height_set_next (s : SkipList) (i level : Nat) (p : Option Nat) :
    (set_next s i level p).height = s.height := by
  unfold set_next
  cases h : s.nodes[i]? <;> simp

theorem keyOf_set_next (s : SkipList) (i level : Nat) (p : Option Nat)
    (j : Nat) : keyOf (set_next s i level p) j = keyOf s j := by
  unfold set_next keyOf
  cases h : s.nodes[i]? with
  | none => rfl
  | some n =>
    simp only
    by_cases hji : i = j
    · subst hji
      rw [List.getElem?_set_eq_of_lt _ (List.getElem?_eq_some.1 h).1, h]
    · rw [List.getElem?_set_ne hji]

theorem valueOf_set_next (s : SkipList) (i level : Nat) (p : Option Nat)
    (j : Nat) : valueOf (set_next s i level p) j = valueOf s j := by
  unfold set_next valueOf
  cases h : s.nodes[i]? with
  | none => rfl
  | some n =>
    simp only
    by_cases hji : i = j
    · subst hji
      rw [List.getElem?_set_eq_of_lt _ (List.getElem?_eq_some.1 h).1, h]
    · rw [List.getElem?_set_ne hji]

theorem towerLen_set_next (s : SkipList) (i level : Nat) (p : Option Nat)
    (j : Nat) : towerLen (set_next s i level p) j = towerLen s j := by
  unfold set_next towerLen
  cases h : s.nodes[i]? with
  | none => rfl
  | some n =>
    simp only
    by_cases hji : i = j
    · subst hji
      rw [List.getElem?_set_eq_of_lt _ (List.getElem?_eq_some.1 h).1, h]
      simp
    · rw [List.getElem?_set_ne hji]

theorem get_next_set_next_same (s : SkipList) (i level : Nat) (p : Option Nat)
    (hi : i < s.nodes.length) (hl : level < towerLen s i) :
    get_next (set_next s i level p) i level = p := by
  unfold set_next get_next
  cases h : s.nodes[i]? with
  | none =>
    rw [List.getElem?_eq_none_iff] at h; omega
  | some n =>
    simp only
    rw [List.getElem?_set_eq_of_lt _ (List.getElem?_eq_some.1 h).1]
    have hlen : level < n.tower.length := by
      unfold towerLen at hl; rw [h] at hl; exact hl
    simp only
    rw [List.getElem?_set_eq_of_lt _ (by simpa using hlen)]

theorem get_next_set_next_other (s : SkipList) (i level : Nat) (p : Option Nat)
    (j m : Nat) (hne : j ≠ i ∨ m ≠ level) :
    get_next (set_next s i level p) j m = get_next s j m := by
  unfold set_next get_next
  cases h : s.nodes[i]? with
  | none => rfl
  | some n =>
    simp only
    by_cases hji : i = j
    · subst hji
      rcases hne with hne | hne
      · omega
      · rw [List.getElem?_set_eq_of_lt _ (List.getElem?_eq_some.1 h).1, h]
        simp only
        rw [List.getElem?_set_ne (by omega)]
    · rw [List.getElem?_set_ne hji]

theorem get_next_append_lt (s s' : SkipList) (nd : Node)
    (hs : s'.nodes = s.nodes ++ [nd]) (j level : Nat)
    (hj : j < s.nodes.length) : get_next s' j level = get_next s j level := by
  unfold get_next
  rw [hs, List.getElem?_append, if_pos hj]

theorem keyOf_append_lt (s s' : SkipList) (nd : Node)
    (hs : s'.nodes = s.nodes ++ [nd]) (j : Nat)
    (hj : j < s.nodes.length) : keyOf s' j = keyOf s j := by
  unfold keyOf
  rw [hs, List.getElem?_append, if_pos hj]

theorem valueOf_append_lt (s s' : SkipList) (nd : Node)
    (hs : s'.nodes = s.nodes ++ [nd]) (j : Nat)
    (hj : j < s.nodes.length) : valueOf s' j = valueOf s j := by
  unfold valueOf
  rw [hs, List.getElem?_append, if_pos hj]

theorem towerLen_append_lt (s s' : SkipList) (nd : Node)
    (hs : s'.nodes = s.nodes ++ [nd]) (j : Nat)
    (hj : j < s.nodes.length) : towerLen s' j = towerLen s j := by
  unfold towerLen
  rw [hs, List.getElem?_append, if_pos hj]

theorem nodes_getElem_append_new (s s' : SkipList) (nd : Node)
    (hs : s'.nodes = s.nodes ++ [nd]) :
    s'.nodes[s.nodes.length]? = some nd := by
  rw [hs, List.getElem?_append_right (Nat.le_refl _)]
  simp

theorem get_next_append_new (s s' : SkipList) (k v : Int) (h : Nat)
    (hs : s'.nodes =
      s.nodes ++ [{ key := k, value := v, tower := List.replicate h none }])
    (level : Nat) : get_next s' s.nodes.length level = none := by
  unfold get_next
  rw [nodes_getElem_append_new s s' _ hs]
  simp only [List.getElem?_replicate]
  by_cases hl : level < h
  · rw [if_pos hl]
  · rw [if_neg hl]

theorem keyOf_append_new (s s' : SkipList) (k v : Int) (h : Nat)
    (hs : s'.nodes =
      s.nodes ++ [{ key := k, value := v, tower := List.replicate h none }]) :
    keyOf s' s.nodes.length = k := by
  unfold keyOf
  rw [nodes_getElem_append_new s s' _ hs]

theorem valueOf_append_new (s s' : SkipList) (k v : Int) (h : Nat)
    (hs : s'.nodes =
      s.nodes ++ [{ key := k, value := v, tower := List.replicate h none }]) :
    valueOf s' s.nodes.length = v := by
  unfold valueOf
  rw [nodes_getElem_append_new s s' _ hs]

theorem towerLen_append_new (s s' : SkipList) (k v : Int) (h : Nat)
    (hs : s'.nodes =
      s.nodes ++ [{ key := k, value := v, tower := List.replicate h none }]) :
    towerLen s' s.nodes.length = h := by
  unfold towerLen
  rw [nodes_getElem_append_new s s' _ hs]
  simp

/-! ## List helpers -/

theorem dropWhile_head_false {α : Type} (P : α → Bool) :
    ∀ (l : List α) (x : α) (xs : List α),
      l.dropWhile P = x :: xs → P x = false
  | [], x, xs, h => by simp [List.dropWhile] at h
  | a :: l, x, xs, h => by
    by_cases ha : P a
    · rw [List.dropWhile_cons_of_pos ha] at h
      exact dropWhile_head_false P l x xs h
    · rw [List.dropWhile_cons_of_neg ha] at h
      cases h
      simpa using ha

theorem takeWhile_all {α : Type} (P : α → Bool) :
    ∀ (l : List α), (∀ x ∈ l, P x = true) → l.takeWhile P = l
  | [], _ => rfl
  | a :: l, h => by
    rw [List.takeWhile_cons_of_pos (h a (by simp))]
    rw [takeWhile_all P l (fun x hx => h x (by simp [hx]))]

theorem takeWhile_append_all {α : Type} (P : α → Bool) :
    ∀ (l₁ l₂ : List α), (∀ x ∈ l₁, P x = true) →
      (l₁ ++ l₂).takeWhile P = l₁ ++ l₂.takeWhile P
  | [], l₂, _ => rfl
  | a :: l₁, l₂, h => by
    rw [List.cons_append, List.takeWhile_cons_of_pos (h a (by simp))]
    rw [takeWhile_append_all P l₁ l₂ (fun x hx => h x (by simp [hx]))]
    rfl

theorem dropWhile_append_all {α : Type} (P : α → Bool) :
    ∀ (l₁ l₂ : List α), (∀ x ∈ l₁, P x = true) →
      (l₁ ++ l₂).dropWhile P = l₂.dropWhile P
  | [], l₂, _ => rfl
  | a :: l₁, l₂, h => by
    rw [List.cons_append, List.dropWhile_cons_of_pos (h a (by simp))]
    exact dropWhile_append_all P l₁ l₂ (fun x hx => h x (by simp [hx]))

theorem getLastD_append_left {α : Type} (d : α) :
    ∀ (l₁ l₂ : List α), (l₁ ++ l₂).getLastD d = l₂.getLastD (l₁.getLastD d)
  | l₁, [] => by simp
  | l₁, b :: l₂ => by
    rw [List.getLastD_cons]
    rw [show l₁ ++ b :: l₂ = (l₁ ++ [b]) ++ l₂ by simp]
    rw [getLastD_append_left d (l₁ ++ [b]) l₂]
    simp

theorem getLastD_mem_cons {α : Type} :
    ∀ (l : List α) (d : α), l.getLastD d = d ∨ l.getLastD d ∈ l := by
  intro l
  induction l with
  | nil => exact fun d => .inl rfl
  | cons a l ih =>
    intro d
    rw [List.getLastD_cons]
    rcases ih a with h | h
    · exact .inr (by rw [h]; exact List.mem_cons_self a l)
    · exact .inr (List.mem_cons_of_mem _ h)

/-! ## Chain lemmas -/

theorem isChain_congr {s s' : SkipList} {level : Nat} {l : List Nat} :
    ∀ {q : Nat}, isChain s level q l →
      (∀ a, a = q ∨ a ∈ l → get_next s' a level = get_next s a level) →
      isChain s' level q l := by
  induction l with
  | nil =>
    intro q h hagree
    simp only [isChain] at h ⊢
    rw [hagree q (.inl rfl)]
    exact h
  | cons x xs ih =>
    intro q h hagree
    simp only [isChain] at h ⊢
    refine ⟨by rw [hagree q (.inl rfl)]; exact h.1, ih h.2 ?_⟩
    intro a ha
    refine hagree a ?_
    rcases ha with hx | hmem
    · exact .inr (by rw [hx]; exact List.mem_cons_self x xs)
    · exact .inr (List.mem_cons_of_mem _ hmem)

theorem isChain_unique {s : SkipList} {level : Nat} :
    ∀ {l₁ : List Nat} {p : Nat} {l₂ : List Nat},
      isChain s level p l₁ → isChain s level p l₂ → l₁ = l₂ := by
  intro l₁
  induction l₁ with
  | nil =>
    intro p l₂ h1 h2
    cases l₂ with
    | nil => rfl
    | cons y ys =>
      simp only [isChain] at h1 h2
      rw [h1] at h2
      exact absurd h2.1 (by simp)
  | cons x xs ih =>
    intro p l₂ h1 h2
    cases l₂ with
    | nil =>
      simp only [isChain] at h1 h2
      rw [h2] at h1
      exact absurd h1.1 (by simp)
    | cons y ys =>
      simp only [isChain] at h1 h2
      have hxy : x = y := by
        have := h1.1.symm.trans h2.1
        simpa using this
      subst hxy
      rw [ih h1.2 h2.2]

theorem isChain_mid {s : SkipList} {level : Nat} :
    ∀ (l₁ : List Nat) {l₂ : List Nat} {p : Nat},
      isChain s level p (l₁ ++ l₂) → isChain s level (l₁.getLastD p) l₂ := by
  intro l₁
  induction l₁ with
  | nil => exact fun h => h
  | cons a l₁ ih =>
    intro l₂ p h
    rw [List.getLastD_cons]
    simp only [List.cons_append, isChain] at h
    exact ih h.2

theorem isChain_next_at {s : SkipList} {level : Nat} (l₁ : List Nat)
    {l₂ : List Nat} {p : Nat} (h : isChain s level p (l₁ ++ l₂)) :
    get_next s (l₁.getLastD p) level = l₂.head? := by
  have hmid := isChain_mid l₁ h
  cases l₂ with
  | nil => simpa only [isChain] using hmid
  | cons x xs =>
    simp only [isChain] at hmid
    rw [List.head?_cons]
    exact hmid.1

theorem isChain_mem_suffix {s : SkipList} {level : Nat} {p : Nat}
    {l : List Nat} (h : isChain s level p l) {x : Nat} (hx : x ∈ l) :
    ∃ l₁ l₂, l = l₁ ++ x :: l₂ ∧ isChain s level x l₂ := by
  rcases List.append_of_mem hx with ⟨l₁, l₂, rfl⟩
  refine ⟨l₁, l₂, rfl, ?_⟩
  have h2 : isChain s level ((l₁ ++ [x]).getLastD p) l₂ :=
    isChain_mid (l₁ ++ [x]) (by simpa using h)
  rw [getLastD_append_left, List.getLastD_cons] at h2
  simpa using h2

theorem nodup_of_sorted {s : SkipList} {l : List Nat}
    (h : l.Pairwise (fun a b => keyOf s a < keyOf s b)) : l.Nodup := by
  refine h.imp ?_
  intro a b hab he
  subst he
  exact lt_irrefl _ hab

theorem length_le_of_nodup_lt {l : List Nat} {N : Nat} (hd : l.Nodup)
    (hm : ∀ x ∈ l, x < N) : l.length ≤ N := by
  classical
  have hsub : l.toFinset ⊆ Finset.range N := by
    intro x hx
    exact Finset.mem_range.2 (hm x (List.mem_toFinset.1 hx))
  have hcard := Finset.card_le_card hsub
  rw [List.toFinset_card_of_nodup hd] at hcard
  simpa using hcard

theorem chain_length_le {s : SkipList} {ch : Nat → List Nat}
    (hInv : Inv s ch) (level : Nat) : (ch level).length ≤ s.nodes.length :=
  length_le_of_nodup_lt (nodup_of_sorted (hInv.sorted level))
    (fun x hx => hInv.ltLen level x hx)

theorem mem_chain_zero {s : SkipList} {ch : Nat → List Nat}
    (hInv : Inv s ch) : ∀ level x, x ∈ ch level → x ∈ ch 0 := by
  intro level
  induction level with
  | zero => exact fun x h => h
  | succ n ih => exact fun x h => ih x (hInv.sub n x h)

/-! ## Segment lemmas -/

theorem lowSeg_append_highSeg (s : SkipList) (k : Int) (l : List Nat) :
    lowSeg s k l ++ highSeg s k l = l := by
  unfold lowSeg highSeg
  exact List.takeWhile_append_dropWhile _ _

theorem mem_lowSeg_lt {s : SkipList} {k : Int} {l : List Nat} {x : Nat}
    (hx : x ∈ lowSeg s k l) : keyOf s x < k := by
  have := List.mem_takeWhile_imp hx
  exact of_decide_eq_true this

theorem lowSeg_subset {s : SkipList} {k : Int} {l : List Nat} :
    ∀ x ∈ lowSeg s k l, x ∈ l := by
  intro x hx
  have h : lowSeg s k l ++ highSeg s k l = l := lowSeg_append_highSeg s k l
  rw [← h]
  exact List.mem_append_left _ hx

theorem highSeg_subset {s : SkipList} {k : Int} {l : List Nat} :
    ∀ x ∈ highSeg s k l, x ∈ l := by
  intro x hx
  have h : lowSeg s k l ++ highSeg s k l = l := lowSeg_append_highSeg s k l
  rw [← h]
  exact List.mem_append_right _ hx

theorem highSeg_head_not_lt {s : SkipList} {k : Int} {l : List Nat}
    {x : Nat} {xs : List Nat} (h : highSeg s k l = x :: xs) :
    ¬ keyOf s x < k := by
  have := dropWhile_head_false (fun i => decide (keyOf s i < k)) l x xs h
  simpa using this

theorem highSeg_gt {s : SkipList} {k : Int} {l : List Nat}
    (hs : l.Pairwise (fun a b => keyOf s a < keyOf s b))
    (hfresh : ∀ x ∈ l, keyOf s x ≠ k) :
    ∀ x ∈ highSeg s k l, k < keyOf s x := by
  intro x hx
  cases hhs : highSeg s k l with
  | nil => rw [hhs] at hx; cases hx
  | cons y ys =>
    rw [hhs] at hx
    have hy_not_lt : ¬ keyOf s y < k := highSeg_head_not_lt hhs
    have hy_ne : keyOf s y ≠ k := hfresh y (highSeg_subset y (by rw [hhs]; simp))
    have hy_gt : k < keyOf s y := by
      rcases lt_trichotomy (keyOf s y) k with h | h | h
      · exact absurd h hy_not_lt
      · exact absurd h hy_ne
      · exact h
    rcases List.mem_cons.1 hx with hxy | hxys
    · rw [hxy]; exact hy_gt
    · have hsorted2 : (highSeg s k l).Pairwise (fun a b => keyOf s a < keyOf s b) := by
        unfold highSeg
        exact hs.sublist (List.dropWhile_sublist _)
      rw [hhs] at hsorted2
      have := (List.pairwise_cons.1 hsorted2).1 x hxys
      exact lt_trans hy_gt this

theorem lowSeg_congr {s s' : SkipList} {k : Int} :
    ∀ {l : List Nat}, (∀ x ∈ l, keyOf s' x = keyOf s x) →
      lowSeg s' k l = lowSeg s k l := by
  intro l
  induction l with
  | nil => intro _; rfl
  | cons a l ih =>
    intro h
    unfold lowSeg at ih ⊢
    rw [List.takeWhile_cons, List.takeWhile_cons, h a (by simp),
      ih (fun x hx => h x (by simp [hx]))]

theorem highSeg_congr {s s' : SkipList} {k : Int} :
    ∀ {l : List Nat}, (∀ x ∈ l, keyOf s' x = keyOf s x) →
      highSeg s' k l = highSeg s k l := by
  intro l
  induction l with
  | nil => intro _; rfl
  | cons a l ih =>
    intro h
    unfold highSeg at ih ⊢
    rw [List.dropWhile_cons, List.dropWhile_cons, h a (by simp)]
    split
    · exact ih (fun x hx => h x (by simp [hx]))
    · rfl

theorem prevAt_congr {s s' : SkipList} {k : Int} {l : List Nat}
    (h : ∀ x ∈ l, keyOf s' x = keyOf s x) : prevAt s' k l = prevAt s k l := by
  unfold prevAt
  rw [lowSeg_congr h]

theorem nextAt_congr {s s' : SkipList} {k : Int} {l : List Nat}
    (h : ∀ x ∈ l, keyOf s' x = keyOf s x) : nextAt s' k l = nextAt s k l := by
  unfold nextAt
  rw [highSeg_congr h]

theorem prevAt_mem_or_zero (s : SkipList) (k : Int) (l : List Nat) :
    prevAt s k l = 0 ∨ (prevAt s k l ∈ l ∧ keyOf s (prevAt s k l) < k) := by
  unfold prevAt
  rcases getLastD_mem_cons (lowSeg s k l) 0 with h | h
  · exact .inl h
  · exact .inr ⟨lowSeg_subset _ h, mem_lowSeg_lt h⟩

/-! ## find_node_prev_next on a fresh key -/

theorem fnpn_fresh (s : SkipList) (k : Int) (level : Nat) :
    ∀ (l : List Nat) (p : Nat) (fuel : Nat),
      isChain s level p l →
      (∀ x ∈ l, keyOf s x ≠ k) →
      l.length < fuel →
      find_node_prev_next s k fuel p level =
        some ((lowSeg s k l).getLastD p, (highSeg s k l).head?) := by
  intro l
  induction l with
  | nil =>
    intro p fuel hch _ hfuel
    cases fuel with
    | zero => omega
    | succ f =>
      simp only [isChain] at hch
      simp [find_node_prev_next, hch, lowSeg, highSeg]
  | cons x xs ih =>
    intro p fuel hch hfresh hfuel
    cases fuel with
    | zero => omega
    | succ f =>
      simp only [isChain] at hch
      rcases lt_trichotomy (keyOf s x) k with hlt | heq | hgt
      · have : find_node_prev_next s k (f+1) p level =
            find_node_prev_next s k f x level := by
          simp [find_node_prev_next, hch.1, icmp_eq_lt.2 hlt]
        rw [this, ih x f hch.2 (fun y hy => hfresh y (by simp [hy]))
          (by simp at hfuel; omega)]
        unfold lowSeg highSeg
        rw [List.takeWhile_cons_of_pos (by simpa using hlt),
          List.dropWhile_cons_of_pos (by simpa using hlt)]
        rw [List.getLastD_cons]
      · exact absurd heq (hfresh x (by simp))
      · have hres : find_node_prev_next s k (f+1) p level =
            some (p, some x) := by
          simp [find_node_prev_next, hch.1, icmp_eq_gt.2 hgt]
        rw [hres]
        unfold lowSeg highSeg
        rw [List.takeWhile_cons_of_neg (by simpa using not_lt.2 (le_of_lt hgt)),
          List.dropWhile_cons_of_neg (by simpa using not_lt.2 (le_of_lt hgt))]
        rfl

theorem fnpn_at_level (s : SkipList) (ch : Nat → List Nat) (k : Int)
    (hInv : Inv s ch) (hfresh0 : ∀ x ∈ ch 0, keyOf s x ≠ k)
    (level : Nat) (start : Nat)
    (hstart : start = 0 ∨ (start ∈ ch level ∧ keyOf s start < k)) :
    find_node_prev_next s k (s.nodes.length + 1) start level =
      some (prevAt s k (ch level), nextAt s k (ch level)) := by
  have hfresh : ∀ x ∈ ch level, keyOf s x ≠ k :=
    fun x hx => hfresh0 x (mem_chain_zero hInv level x hx)
  rcases hstart with hstart | ⟨hmem, hklt⟩
  · subst hstart
    have := fnpn_fresh s k level (ch level) 0 (s.nodes.length + 1)
      (hInv.chain level) hfresh
      (Nat.lt_succ_of_le (chain_length_le hInv level))
    rw [this]
    rfl
  · rcases isChain_mem_suffix (hInv.chain level) hmem with ⟨l₁, l₂, hdec, hch2⟩
    have hfresh2 : ∀ x ∈ l₂, keyOf s x ≠ k := by
      intro x hx
      exact hfresh x (by rw [hdec]; simp [hx])
    have hlen2 : l₂.length < s.nodes.length + 1 := by
      have h1 : l₂.length ≤ (ch level).length := by
        rw [hdec]; simp; omega
      exact Nat.lt_succ_of_le (le_trans h1 (chain_length_le hInv level))
    have hrun := fnpn_fresh s k level l₂ start (s.nodes.length + 1) hch2
      hfresh2 hlen2
    rw [hrun]
    -- every element of l₁ and start itself has key below k
    have hsorted := hInv.sorted level
    rw [hdec] at hsorted
    have hl₁_lt : ∀ y ∈ l₁ ++ [start], decide (keyOf s y < k) = true := by
      intro y hy
      rcases List.mem_append.1 hy with hy | hy
      · have hrel := (List.pairwise_append.1 hsorted).2.2 y hy start (by simp)
        exact decide_eq_true (lt_trans hrel hklt)
      · rcases List.mem_singleton.1 hy with rfl
        exact decide_eq_true hklt
    have hlow : lowSeg s k (ch level) = (l₁ ++ [start]) ++ lowSeg s k l₂ := by
      unfold lowSeg
      rw [hdec, show l₁ ++ start :: l₂ = (l₁ ++ [start]) ++ l₂ by simp]
      exact takeWhile_append_all _ _ _ hl₁_lt
    have hhigh : highSeg s k (ch level) = highSeg s k l₂ := by
      unfold highSeg
      rw [hdec, show l₁ ++ start :: l₂ = (l₁ ++ [start]) ++ l₂ by simp]
      exact dropWhile_append_all _ _ _ hl₁_lt
    unfold prevAt nextAt
    rw [hlow, hhigh, getLastD_append_left, getLastD_append_left,
      List.getLastD_cons]
    rfl

theorem nextAt_ne_some_prevAt {s : SkipList} {ch : Nat → List Nat}
    {k : Int} (hInv : Inv s ch) (hfresh0 : ∀ x ∈ ch 0, keyOf s x ≠ k)
    (level : Nat) :
    nextAt s k (ch level) ≠ some (prevAt s k (ch level)) := by
  intro hcontra
  have hfresh : ∀ x ∈ ch level, keyOf s x ≠ k :=
    fun x hx => hfresh0 x (mem_chain_zero hInv level x hx)
  have hmemhigh : prevAt s k (ch level) ∈ highSeg s k (ch level) := by
    unfold nextAt at hcontra
    cases hh : highSeg s k (ch level) with
    | nil => rw [hh] at hcontra; simp at hcontra
    | cons y ys =>
      rw [hh] at hcontra
      simp at hcontra
      rw [← hcontra]
      simp
  have hgt := highSeg_gt (hInv.sorted level) hfresh _ hmemhigh
  rcases prevAt_mem_or_zero s k (ch level) with h0 | ⟨_, hlt⟩
  · have := hInv.ne0 level _ (highSeg_subset _ hmemhigh)
    exact this h0
  · omega

theorem phase1_spec (s : SkipList) (ch : Nat → List Nat) (k : Int)
    (hInv : Inv s ch) (hfresh : ∀ x ∈ ch 0, keyOf s x ≠ k) :
    ∀ (c : Nat) (prev nxt : List (Option Nat)),
      prev.length = MAX_HEIGHT + 1 → nxt.length = MAX_HEIGHT + 1 →
      c ≤ MAX_HEIGHT →
      (prev[c]?).getD none = some (prevAt s k (ch c)) →
      ∃ prev' nxt',
        phase1 s k c prev nxt = .ok (prev', nxt') ∧
        prev'.length = MAX_HEIGHT + 1 ∧ nxt'.length = MAX_HEIGHT + 1 ∧
        (∀ m, m < c → prev'[m]? = some (some (prevAt s k (ch m))) ∧
          nxt'[m]? = some (nextAt s k (ch m))) ∧
        (∀ m, c ≤ m → prev'[m]? = prev[m]? ∧ nxt'[m]? = nxt[m]?) := by
  intro c
  induction c with
  | zero =>
    intro prev nxt hpl hnl _ _
    refine ⟨prev, nxt, rfl, hpl, hnl, ?_, ?_⟩
    · intro m hm; omega
    · intro m _; exact ⟨rfl, rfl⟩
  | succ c ih =>
    intro prev nxt hpl hnl hcle hc
    have hstart_eq : (prev[c+1]?).getD none = some (prevAt s k (ch (c+1))) := hc
    have hstart : prevAt s k (ch (c+1)) = 0 ∨
        (prevAt s k (ch (c+1)) ∈ ch c ∧ keyOf s (prevAt s k (ch (c+1))) < k) := by
      rcases prevAt_mem_or_zero s k (ch (c+1)) with h | ⟨hmem, hlt⟩
      · exact .inl h
      · exact .inr ⟨hInv.sub c _ hmem, hlt⟩
    have hfind := fnpn_at_level s ch k hInv hfresh c _ hstart
    have hne := nextAt_ne_some_prevAt hInv hfresh c
    have hred : phase1 s k (c+1) prev nxt =
        phase1 s k c (prev.set c (some (prevAt s k (ch c))))
          (nxt.set c (nextAt s k (ch c))) := by
      simp only [phase1, hstart_eq, hfind]
      rw [if_neg hne]
    rw [hred]
    have hc' : ((prev.set c (some (prevAt s k (ch c))))[c]?).getD none =
        some (prevAt s k (ch c)) := by
      rw [List.getElem?_set_eq_of_lt _ (by rw [hpl]; omega)]
      rfl
    rcases ih (prev.set c (some (prevAt s k (ch c))))
        (nxt.set c (nextAt s k (ch c))) (by simp [hpl]) (by simp [hnl])
        (by omega) hc' with
      ⟨prev', nxt', hrun, hpl', hnl', hfill, hkeep⟩
    refine ⟨prev', nxt', hrun, hpl', hnl', ?_, ?_⟩
    · intro m hm
      rcases Nat.lt_or_ge m c with hmc | hmc
      · exact hfill m hmc
      · have hmeq : m = c := by omega
        subst hmeq
        rcases hkeep m (le_refl _) with ⟨h1, h2⟩
        rw [h1, h2, List.getElem?_set_eq_of_lt _ (by rw [hpl]; omega),
          List.getElem?_set_eq_of_lt _ (by rw [hnl]; omega)]
        exact ⟨rfl, rfl⟩
    · intro m hm
      rcases hkeep m (by omega) with ⟨h1, h2⟩
      rw [h1, h2, List.getElem?_set_ne (by omega), List.getElem?_set_ne (by omega)]
      exact ⟨rfl, rfl⟩

/-! ## Linking one level -/

theorem linkLevel_hit (s : SkipList) (k : Int) (nid : Nat) (level fuel : Nat)
    (p : Nat) (n : Option Nat)
    (hne : p ≠ nid)
    (hcur : get_next s p level = n) :
    linkLevel s k nid level (fuel+1) (some p) n =
      .ok (set_next (set_next s nid level n) p level (some nid)) := by
  have hcas : get_next (set_next s nid level n) p level = n := by
    rw [get_next_set_next_other s nid level n p level (.inl hne)]
    exact hcur
  simp [linkLevel, hcas]

theorem linkLevel_lazy (s : SkipList) (k : Int) (nid : Nat) (level fuel : Nat)
    (n0 : Option Nat)
    (hfind : find_node_prev_next s k (s.nodes.length + 1) 0 level =
      some (0, none))
    (hcur : get_next s 0 level = none)
    (hne : (0 : Nat) ≠ nid) :
    linkLevel s k nid level (fuel+1) none n0 =
      .ok (set_next (set_next s nid level none) 0 level (some nid)) := by
  have hcas : get_next (set_next s nid level none) 0 level = none := by
    rw [get_next_set_next_other s nid level none 0 level (.inl hne)]
    exact hcur
  simp [linkLevel, hfind, hcas]

/-! ## Splicing a fresh node into a chain -/

theorem isChain_splice_aux {s : SkipList} {level : Nat} {nid : Nat}
    {l₂ : List Nat} {p : Nat} :
    ∀ (l₁ : List Nat) (q : Nat),
      isChain s level q (l₁ ++ l₂) →
      p = l₁.getLastD q →
      q ∉ l₁ → l₁.Nodup →
      q ≠ nid → (∀ x ∈ l₁ ++ l₂, x ≠ nid) →
      (∀ x ∈ l₂, x ≠ p) →
      nid < s.nodes.length → level < towerLen s nid →
      p < s.nodes.length → level < towerLen s p →
      isChain (set_next (set_next s nid level l₂.head?) p level (some nid))
        level q (l₁ ++ nid :: l₂) := by
  intro l₁
  induction l₁ with
  | nil =>
    intro q hch hp _ _ hqnid hmem hl₂p hnl hnt hpl hpt
    simp only [List.getLastD] at hp
    subst hp
    simp only [List.nil_append] at hch ⊢
    have hpne : p ≠ nid := hqnid
    have h1 : get_next (set_next (set_next s nid level l₂.head?) p level
        (some nid)) p level = some nid := by
      rw [get_next_set_next_same _ p level (some nid)
        (by rw [nodes_length_set_next]; exact hpl)
        (by rw [towerLen_set_next]; exact hpt)]
    have h2 : get_next (set_next (set_next s nid level l₂.head?) p level
        (some nid)) nid level = l₂.head? := by
      rw [get_next_set_next_other _ p level (some nid) nid level
        (.inl (Ne.symm hpne))]
      rw [get_next_set_next_same _ nid level _ hnl hnt]
    simp only [isChain]
    refine ⟨h1, ?_⟩
    cases l₂ with
    | nil =>
      simp only [isChain]
      simpa using h2
    | cons x xs =>
      simp only [isChain] at hch ⊢
      refine ⟨by simpa using h2, ?_⟩
      refine isChain_congr hch.2 ?_
      intro a ha
      have hal₂ : a ∈ x :: xs := by
        rcases ha with rfl | ha
        · exact List.mem_cons_self _ _
        · exact List.mem_cons_of_mem _ ha
      rw [get_next_set_next_other _ p level (some nid) a level
        (.inl (hl₂p a hal₂))]
      rw [get_next_set_next_other _ nid level _ a level
        (.inl (hmem a (by simpa using hal₂)))]
  | cons y l₁ ih =>
    intro q hch hp hql₁ hnd hqnid hmem hl₂p hnl hnt hpl hpt
    rw [List.getLastD_cons] at hp
    have hpmem : p ∈ y :: l₁ := by
      rcases getLastD_mem_cons l₁ y with hh | hh
      · rw [hp, hh]; exact List.mem_cons_self _ _
      · rw [hp]; exact List.mem_cons_of_mem _ hh
    have hqp : q ≠ p := fun hqp => hql₁ (hqp ▸ hpmem)
    simp only [List.cons_append, isChain] at hch ⊢
    refine ⟨?_, ?_⟩
    · rw [get_next_set_next_other _ p level (some nid) q level (.inl hqp)]
      rw [get_next_set_next_other _ nid level _ q level (.inl hqnid)]
      exact hch.1
    · refine ih y hch.2 hp (by simp at hnd; exact hnd.1) (by simp at hnd; exact hnd.2)
        (hmem y (by simp)) (fun x hx => hmem x (by simp at hx ⊢; tauto))
        hl₂p hnl hnt hpl hpt

/-! ## The bottom-up splicing phase -/

theorem phase2_spec (s0 : SkipList) (ch : Nat → List Nat) (k v : Int)
    (hInv : Inv s0 ch) (hwf : wfBase s0)
    (hfresh : ∀ x ∈ ch 0, keyOf s0 x ≠ k)
    (h : Nat) (hh2 : h ≤ MAX_HEIGHT)
    (prev nxt : List (Option Nat))
    (harr_le : ∀ m, m ≤ s0.height →
      (prev[m]?).getD none = some (prevAt s0 k (ch m)) ∧
      (nxt[m]?).getD none = nextAt s0 k (ch m))
    (harr_gt : ∀ m, s0.height < m → (prev[m]?).getD none = none) :
    ∀ (cnt level : Nat) (t : SkipList),
      level + cnt = h →
      t.nodes.length = s0.nodes.length + 1 →
      (∀ x, x < s0.nodes.length → keyOf t x = keyOf s0 x) →
      keyOf t s0.nodes.length = k →
      (∀ x, x < s0.nodes.length → valueOf t x = valueOf s0 x) →
      valueOf t s0.nodes.length = v →
      (∀ x, x < s0.nodes.length → towerLen t x = towerLen s0 x) →
      towerLen t s0.nodes.length = h →
      (∀ m, m < level →
        isChain t m 0 (spliced s0 k s0.nodes.length (ch m))) →
      (∀ m, level ≤ m → isChain t m 0 (ch m)) →
      ∃ t', phase2 t k s0.nodes.length prev nxt level cnt = .ok t' ∧
        t'.nodes.length = s0.nodes.length + 1 ∧
        (∀ x, x < s0.nodes.length → keyOf t' x = keyOf s0 x) ∧
        keyOf t' s0.nodes.length = k ∧
        (∀ x, x < s0.nodes.length → valueOf t' x = valueOf s0 x) ∧
        valueOf t' s0.nodes.length = v ∧
        (∀ x, x < s0.nodes.length → towerLen t' x = towerLen s0 x) ∧
        towerLen t' s0.nodes.length = h ∧
        t'.height = t.height ∧
        (∀ m, m < h →
          isChain t' m 0 (spliced s0 k s0.nodes.length (ch m))) ∧
        (∀ m, h ≤ m → isChain t' m 0 (ch m)) := by
  intro cnt
  induction cnt with
  | zero =>
    intro level t hlev hlen hk hknew hv hvnew htl htlnew hspl hold
    have hlevh : level = h := by omega
    subst hlevh
    exact ⟨t, rfl, hlen, hk, hknew, hv, hvnew, htl, htlnew, rfl, hspl, hold⟩
  | succ cnt ih =>
    intro level t hlev hlen hk hknew hv hvnew htl htlnew hspl hold
    have hlevlt : level < h := by omega
    have hN1 : 0 < s0.nodes.length := hwf.2.2.2
    have hdec : ch level =
        lowSeg s0 k (ch level) ++ highSeg s0 k (ch level) :=
      (lowSeg_append_highSeg s0 k _).symm
    have hchlev : isChain t level 0 (ch level) := hold level (le_refl _)
    have hchlev' : isChain t level 0
        (lowSeg s0 k (ch level) ++ highSeg s0 k (ch level)) := by
      rw [← hdec]; exact hchlev
    have hnext_t : get_next t (prevAt s0 k (ch level)) level =
        nextAt s0 k (ch level) := by
      unfold prevAt nextAt
      exact isChain_next_at _ hchlev'
    have hpcase := prevAt_mem_or_zero s0 k (ch level)
    have hpne : prevAt s0 k (ch level) ≠ s0.nodes.length := by
      rcases hpcase with h0 | ⟨hmem, _⟩
      · rw [h0]; omega
      · exact Nat.ne_of_lt (hInv.ltLen level _ hmem)
    have hp_lt : prevAt s0 k (ch level) < t.nodes.length := by
      rcases hpcase with h0 | ⟨hmem, _⟩
      · rw [h0]; omega
      · exact lt_of_lt_of_le (hInv.ltLen level _ hmem) (by omega)
    have hp_tall : level < towerLen t (prevAt s0 k (ch level)) := by
      rcases hpcase with h0 | ⟨hmem, _⟩
      · rw [h0, htl 0 hN1, hwf.2.2.1]
        have := hwf.2.1
        unfold MAX_HEIGHT at *
        omega
      · have htall := hInv.tall level _ hmem
        have hplt := hInv.ltLen level _ hmem
        rw [htl _ hplt]
        exact htall
    have hnid_lt : s0.nodes.length < t.nodes.length := by omega
    have hnid_tall : level < towerLen t s0.nodes.length := by
      rw [htlnew]; exact hlevlt
    have hlink : linkLevel t k s0.nodes.length level (t.nodes.length + 2)
        ((prev[level]?).getD none) ((nxt[level]?).getD none) =
        .ok (set_next
          (set_next t s0.nodes.length level (nextAt s0 k (ch level)))
          (prevAt s0 k (ch level)) level (some s0.nodes.length)) := by
      rcases le_or_lt level s0.height with hle | hgt
      · rcases harr_le level hle with ⟨ha1, ha2⟩
        rw [ha1, ha2]
        exact linkLevel_hit t k _ level (t.nodes.length + 1) _ _ hpne hnext_t
      · have hempty : ch level = [] := hInv.high level (le_of_lt hgt)
        have hcur0 : get_next t 0 level = none := by
          have hc := hold level (le_refl _)
          rw [hempty] at hc
          simpa only [isChain] using hc
        have hp0 : prevAt s0 k (ch level) = 0 := by rw [hempty]; rfl
        have hn0 : nextAt s0 k (ch level) = none := by rw [hempty]; rfl
        have hfind : find_node_prev_next t k (t.nodes.length + 1) 0 level =
            some (0, none) := by
          simp [find_node_prev_next, hcur0]
        rw [harr_gt level hgt, hp0, hn0]
        exact linkLevel_lazy t k _ level (t.nodes.length + 1)
          ((nxt[level]?).getD none) hfind hcur0 (by omega)
    have hred : phase2 t k s0.nodes.length prev nxt level (cnt+1) =
        phase2 (set_next
          (set_next t s0.nodes.length level (nextAt s0 k (ch level)))
          (prevAt s0 k (ch level)) level (some s0.nodes.length))
          k s0.nodes.length prev nxt (level+1) cnt := by
      simp only [phase2, hlink]
    -- facts about the post-link state
    generalize ht2 : set_next
      (set_next t s0.nodes.length level (nextAt s0 k (ch level)))
      (prevAt s0 k (ch level)) level (some s0.nodes.length) = t2 at hred
    have hlen2 : t2.nodes.length = s0.nodes.length + 1 := by
      rw [← ht2, nodes_length_set_next, nodes_length_set_next]
      exact hlen
    have hk2 : ∀ x, x < s0.nodes.length → keyOf t2 x = keyOf s0 x := by
      intro x hx
      rw [← ht2, keyOf_set_next, keyOf_set_next]
      exact hk x hx
    have hknew2 : keyOf t2 s0.nodes.length = k := by
      rw [← ht2, keyOf_set_next, keyOf_set_next]
      exact hknew
    have hv2 : ∀ x, x < s0.nodes.length → valueOf t2 x = valueOf s0 x := by
      intro x hx
      rw [← ht2, valueOf_set_next, valueOf_set_next]
      exact hv x hx
    have hvnew2 : valueOf t2 s0.nodes.length = v := by
      rw [← ht2, valueOf_set_next, valueOf_set_next]
      exact hvnew
    have htl2 : ∀ x, x < s0.nodes.length → towerLen t2 x = towerLen s0 x := by
      intro x hx
      rw [← ht2, towerLen_set_next, towerLen_set_next]
      exact htl x hx
    have htlnew2 : towerLen t2 s0.nodes.length = h := by
      rw [← ht2, towerLen_set_next, towerLen_set_next]
      exact htlnew
    have hheight2 : t2.height = t.height := by
      rw [← ht2, height_set_next, height_set_next]
    have hcongr : ∀ m, m ≠ level → ∀ q l, isChain t m q l → isChain t2 m q l := by
      intro m hm q l hl
      refine isChain_congr hl ?_
      intro a _
      rw [← ht2,
        get_next_set_next_other _ (prevAt s0 k (ch level)) level
          (some s0.nodes.length) a m (.inr hm),
        get_next_set_next_other _ s0.nodes.length level
          (nextAt s0 k (ch level)) a m (.inr hm)]
    have hndlev : (ch level).Nodup := nodup_of_sorted (hInv.sorted level)
    have hnd12 : (lowSeg s0 k (ch level) ++ highSeg s0 k (ch level)).Nodup := by
      rw [← hdec]; exact hndlev
    have hsplice : isChain t2 level 0
        (lowSeg s0 k (ch level) ++ s0.nodes.length :: highSeg s0 k (ch level)) := by
      rw [← ht2]
      have hn_head : nextAt s0 k (ch level) = (highSeg s0 k (ch level)).head? :=
        rfl
      rw [hn_head]
      refine isChain_splice_aux (lowSeg s0 k (ch level)) 0 hchlev' rfl ?_ ?_ ?_
        ?_ ?_ hnid_lt hnid_tall hp_lt hp_tall
      · intro hmem
        exact hInv.ne0 level 0
          (by rw [hdec]; exact List.mem_append_left _ hmem) rfl
      · exact hnd12.sublist (List.sublist_append_left _ _)
      · omega
      · intro x hx
        have hxch : x ∈ ch level := by rw [hdec]; exact hx
        have := hInv.ltLen level x hxch
        omega
      · intro x hx
        rcases getLastD_mem_cons (lowSeg s0 k (ch level)) 0 with hh | hh
        · show x ≠ prevAt s0 k (ch level)
          unfold prevAt
          rw [hh]
          exact hInv.ne0 level x
            (by rw [hdec]; exact List.mem_append_right _ hx)
        · have hdisj := List.disjoint_of_nodup_append hnd12
          intro hxp
          refine hdisj hh ?_
          rw [hxp] at hx
          exact hx
    rcases ih (level+1) t2 (by omega) hlen2 hk2 hknew2 hv2 hvnew2 htl2 htlnew2
        (by
          intro m hm
          rcases Nat.lt_or_ge m level with hml | hml
          · exact hcongr m (by omega) 0 _ (hspl m hml)
          · have hmeq : m = level := by omega
            subst hmeq
            exact hsplice)
        (fun m hm => hcongr m (by omega) 0 _ (hold m (by omega))) with
      ⟨t', hrun, c1, c2, c3, c4, c5, c6, c7, c8, c9, c10⟩
    refine ⟨t', ?_, c1, c2, c3, c4, c5, c6, c7, ?_, c9, c10⟩
    · rw [hred]; exact hrun
    · rw [c8, hheight2]

/-! ## Sortedness of the spliced chain -/

theorem mem_spliced_of_mem {s : SkipList} {k : Int} {nid x : Nat}
    {l : List Nat} (hx : x ∈ l) : x ∈ spliced s k nid l := by
  unfold spliced
  rw [← lowSeg_append_highSeg s k l] at hx
  rcases List.mem_append.1 hx with hx | hx
  · exact List.mem_append_left _ hx
  · exact List.mem_append_right _ (List.mem_cons_of_mem _ hx)

theorem mem_of_mem_spliced {s : SkipList} {k : Int} {nid x : Nat}
    {l : List Nat} (hx : x ∈ spliced s k nid l) : x = nid ∨ x ∈ l := by
  unfold spliced at hx
  rcases List.mem_append.1 hx with hx | hx
  · exact .inr (lowSeg_subset _ hx)
  · rcases List.mem_cons.1 hx with hx | hx
    · exact .inl hx
    · exact .inr (highSeg_subset _ hx)

theorem sorted_spliced {s s' : SkipList} {k : Int} {nid : Nat} {l : List Nat}
    (hsor : l.Pairwise (fun a b => keyOf s a < keyOf s b))
    (hfresh : ∀ x ∈ l, keyOf s x ≠ k)
    (hkeys : ∀ x ∈ l, keyOf s' x = keyOf s x)
    (hknid : keyOf s' nid = k) :
    (spliced s k nid l).Pairwise (fun a b => keyOf s' a < keyOf s' b) := by
  have hlows : (lowSeg s k l).Pairwise (fun a b => keyOf s a < keyOf s b) := by
    unfold lowSeg
    exact hsor.sublist (List.takeWhile_sublist _)
  have hhighs : (highSeg s k l).Pairwise (fun a b => keyOf s a < keyOf s b) := by
    unfold highSeg
    exact hsor.sublist (List.dropWhile_sublist _)
  have hkeys_low : ∀ x ∈ lowSeg s k l, keyOf s' x = keyOf s x :=
    fun x hx => hkeys x (lowSeg_subset _ hx)
  have hkeys_high : ∀ x ∈ highSeg s k l, keyOf s' x = keyOf s x :=
    fun x hx => hkeys x (highSeg_subset _ hx)
  have hgt := highSeg_gt hsor hfresh
  unfold spliced
  rw [List.pairwise_append]
  refine ⟨?_, ?_, ?_⟩
  · refine hlows.imp_of_mem ?_
    intro a b ha hb hr
    rw [hkeys_low a ha, hkeys_low b hb]
    exact hr
  · rw [List.pairwise_cons]
    refine ⟨?_, ?_⟩
    · intro b hb
      rw [hknid, hkeys_high b hb]
      exact hgt b hb
    · refine hhighs.imp_of_mem ?_
      intro a b ha hb hr
      rw [hkeys_high a ha, hkeys_high b hb]
      exact hr
  · intro a ha b hb
    have hak : keyOf s a < k := mem_lowSeg_lt ha
    rcases List.mem_cons.1 hb with hb | hb
    · rw [hb, hknid, hkeys_low a ha]
      exact hak
    · rw [hkeys_low a ha, hkeys_high b hb]
      exact lt_trans hak (hgt b hb)

/-! ## The full insertion -/

theorem insert_ok (s : SkipList) (ch : Nat → List Nat) (k v : Int) (h : Nat)
    (hInv : Inv s ch) (hwf : wfBase s)
    (hfresh : ∀ x ∈ ch 0, keyOf s x ≠ k)
    (hh1 : 1 ≤ h) (hh2 : h ≤ MAX_HEIGHT) :
    ∃ s', insert s k v h = .ok s' ∧
      wfBase s' ∧
      s'.nodes.length = s.nodes.length + 1 ∧
      (∀ x, x < s.nodes.length → keyOf s' x = keyOf s x ∧
        valueOf s' x = valueOf s x) ∧
      keyOf s' s.nodes.length = k ∧ valueOf s' s.nodes.length = v ∧
      Inv s' (fun m =>
        if m < h then spliced s k s.nodes.length (ch m) else ch m) ∧
      (fun m =>
        if m < h then spliced s k s.nodes.length (ch m) else ch m) 0 =
          spliced s k s.nodes.length (ch 0) := by
  have hH20 : s.height ≤ MAX_HEIGHT := hwf.2.1
  have hH1 : 1 ≤ s.height := hwf.1
  have hN1 : 0 < s.nodes.length := hwf.2.2.2
  have hchH : ch s.height = [] := hInv.high s.height (le_refl _)
  -- phase 1
  have hp0len : ((List.replicate (MAX_HEIGHT + 1) (none : Option Nat)).set
      s.height (some 0)).length = MAX_HEIGHT + 1 := by simp
  have hn0len : (List.replicate (MAX_HEIGHT + 1) (none : Option Nat)).length =
      MAX_HEIGHT + 1 := by simp
  have hstart0 : (((List.replicate (MAX_HEIGHT + 1) (none : Option Nat)).set
      s.height (some 0))[s.height]?).getD none =
      some (prevAt s k (ch s.height)) := by
    rw [List.getElem?_set_eq_of_lt _ (by simp; omega)]
    rw [hchH]
    rfl
  rcases phase1_spec s ch k hInv hfresh s.height _ _ hp0len hn0len hH20
      hstart0 with ⟨prev', nxt', hp1run, hplen', hnlen', hfill, hkeep⟩
  -- the allocated state
  have hs1nodes : (SkipList.mk
      (s.nodes ++ [{ key := k, value := v, tower := List.replicate h none }])
      (if s.height < h then h else s.height)).nodes =
      s.nodes ++ [{ key := k, value := v, tower := List.replicate h none }] :=
    rfl
  -- array facts for phase 2
  have harr_le : ∀ m, m ≤ s.height →
      (prev'[m]?).getD none = some (prevAt s k (ch m)) ∧
      (nxt'[m]?).getD none = nextAt s k (ch m) := by
    intro m hm
    rcases Nat.lt_or_ge m s.height with hlt | hge
    · rcases hfill m hlt with ⟨h1, h2⟩
      rw [h1, h2]
      exact ⟨rfl, rfl⟩
    · have hmeq : m = s.height := by omega
      subst hmeq
      rcases hkeep s.height (le_refl _) with ⟨h1, h2⟩
      rw [h1, h2, List.getElem?_set_eq_of_lt _ (by simp; omega),
        List.getElem?_replicate]
      rw [if_pos (by omega)]
      rw [hchH]
      exact ⟨rfl, rfl⟩
  have harr_gt : ∀ m, s.height < m → (prev'[m]?).getD none = none := by
    intro m hm
    rcases hkeep m (by omega) with ⟨h1, _⟩
    rw [h1, List.getElem?_set_ne (by omega)]
    rcases Nat.lt_or_ge m (MAX_HEIGHT + 1) with hlt | hge
    · rw [List.getElem?_replicate, if_pos hlt]
      rfl
    · rw [List.getElem?_eq_none_iff.2 (by simp; omega)]
      rfl
  -- initial state for phase 2
  have hinit_chain : ∀ m, isChain (SkipList.mk
      (s.nodes ++ [{ key := k, value := v, tower := List.replicate h none }])
      (if s.height < h then h else s.height)) m 0 (ch m) := by
    intro m
    refine isChain_congr (hInv.chain m) ?_
    intro a ha
    refine get_next_append_lt s _ _ hs1nodes a m ?_
    rcases ha with ha | ha
    · omega
    · exact hInv.ltLen m a ha
  rcases phase2_spec s ch k v hInv hwf hfresh h hh2 prev' nxt' harr_le harr_gt
      h 0 _ (by omega) (by simp) 
      (fun x hx => keyOf_append_lt s _ _ hs1nodes x hx)
      (keyOf_append_new s _ k v h hs1nodes)
      (fun x hx => valueOf_append_lt s _ _ hs1nodes x hx)
      (valueOf_append_new s _ k v h hs1nodes)
      (fun x hx => towerLen_append_lt s _ _ hs1nodes x hx)
      (towerLen_append_new s _ k v h hs1nodes)
      (by intro m hm; omega)
      (fun m _ => hinit_chain m) with
    ⟨t', hp2run, c1, c2, c3, c4, c5, c6, c7, c8, c9, c10⟩
  have hheight' : t'.height = if s.height < h then h else s.height := c8
  have hrun : insert s k v h = .ok t' := by
    simp only [insert]
    rw [hp1run]
    exact hp2run
  refine ⟨t', hrun, ?_, c1, fun x hx => ⟨c2 x hx, c4 x hx⟩, c3, c5, ?_, ?_⟩
  · -- wfBase
    refine ⟨?_, ?_, ?_, ?_⟩
    · rw [hheight']
      split <;> omega
    · rw [hheight']
      split <;> omega
    · rw [c6 0 hN1]
      exact hwf.2.2.1
    · omega
  · -- Inv
    refine ⟨?_, ?_, ?_, ?_, ?_, ?_, ?_⟩
    · intro level
      by_cases hl : level < h
      · rw [if_pos hl]
        exact c9 level hl
      · rw [if_neg hl]
        exact c10 level (by omega)
    · intro level
      by_cases hl : level < h
      · rw [if_pos hl]
        refine sorted_spliced (hInv.sorted level)
          (fun x hx => hfresh x (mem_chain_zero hInv level x hx)) ?_ c3
        intro x hx
        exact c2 x (hInv.ltLen level x hx)
      · rw [if_neg hl]
        refine (hInv.sorted level).imp_of_mem ?_
        intro a b ha hb hr
        rw [c2 a (hInv.ltLen level a ha), c2 b (hInv.ltLen level b hb)]
        exact hr
    · intro level x hx
      by_cases hl1 : level + 1 < h
      · rw [if_pos hl1] at hx
        rw [if_pos (by omega)]
        rcases mem_of_mem_spliced hx with hx | hx
        · rw [hx]
          exact List.mem_append_right _ (List.mem_cons_self _ _)
        · exact mem_spliced_of_mem (hInv.sub level x hx)
      · rw [if_neg hl1] at hx
        by_cases hl2 : level < h
        · rw [if_pos hl2]
          exact mem_spliced_of_mem (hInv.sub level x hx)
        · rw [if_neg hl2]
          exact hInv.sub level x hx
    · intro level x hx
      by_cases hl : level < h
      · rw [if_pos hl] at hx
        rcases mem_of_mem_spliced hx with hx | hx
        · omega
        · exact hInv.ne0 level x hx
      · rw [if_neg hl] at hx
        exact hInv.ne0 level x hx
    · intro level x hx
      rw [c1]
      by_cases hl : level < h
      · rw [if_pos hl] at hx
        rcases mem_of_mem_spliced hx with hx | hx
        · omega
        · have := hInv.ltLen level x hx
          omega
      · rw [if_neg hl] at hx
        have := hInv.ltLen level x hx
        omega
    · intro level x hx
      by_cases hl : level < h
      · rw [if_pos hl] at hx
        rcases mem_of_mem_spliced hx with hx | hx
        · rw [hx, c7]
          omega
        · rw [c6 x (hInv.ltLen level x hx)]
          exact hInv.tall level x hx
      · rw [if_neg hl] at hx
        rw [c6 x (hInv.ltLen level x hx)]
        exact hInv.tall level x hx
    · intro level hlev
      rw [hheight'] at hlev
      have hlevh : h ≤ level := by
        by_cases hcmp : s.height < h
        · rw [if_pos hcmp] at hlev; omega
        · rw [if_neg hcmp] at hlev; omega
      have hlevH : s.height ≤ level := by
        by_cases hcmp : s.height < h
        · rw [if_pos hcmp] at hlev; omega
        · rw [if_neg hcmp] at hlev; omega
      rw [if_neg (by omega)]
      exact hInv.high level hlevH
  · show (if 0 < h then spliced s k s.nodes.length (ch 0) else ch 0) =
        spliced s k s.nodes.length (ch 0)
    rw [if_pos (by omega)]

/-! ## Building a list from a sequence of insertions -/

theorem pairsOf_congr {s s' : SkipList} {l : List Nat}
    (h : ∀ x ∈ l, keyOf s' x = keyOf s x ∧ valueOf s' x = valueOf s x) :
    pairsOf s' l = pairsOf s l := by
  unfold pairsOf
  refine List.map_congr_left ?_
  intro x hx
  rw [(h x hx).1, (h x hx).2]

theorem pairsOf_append (s : SkipList) (l₁ l₂ : List Nat) :
    pairsOf s (l₁ ++ l₂) = pairsOf s l₁ ++ pairsOf s l₂ := by
  unfold pairsOf
  exact List.map_append _ _ _

theorem get_next_new (i level : Nat) : get_next skipListNew i level = none := by
  unfold get_next skipListNew
  cases i with
  | zero =>
    simp only [List.getElem?_cons_zero, List.getElem?_replicate]
    by_cases hl : level < MAX_HEIGHT
    · rw [if_pos hl]
    · rw [if_neg hl]
  | succ n =>
    simp

theorem wfBase_new : wfBase skipListNew := by
  refine ⟨by decide, by decide, ?_, by decide⟩
  decide

theorem Inv_new : Inv skipListNew (fun _ => []) := by
  refine ⟨?_, ?_, ?_, ?_, ?_, ?_, ?_⟩
  · intro level
    show get_next skipListNew 0 level = none
    exact get_next_new 0 level
  · intro level
    exact List.Pairwise.nil
  · intro level x hx
    cases hx
  · intro level x hx
    cases hx
  · intro level x hx
    cases hx
  · intro level x hx
    cases hx
  · intro level _
    rfl

theorem insertOps_spec :
    ∀ (ops : List (Int × Int × Nat)) (s : SkipList) (ch : Nat → List Nat),
      wfBase s → Inv s ch → heightsOk ops →
      (opKeys ops).Nodup →
      (∀ t ∈ ops, ∀ x ∈ ch 0, keyOf s x ≠ t.1) →
      ∃ s' ch', insertOps s ops = .ok s' ∧ wfBase s' ∧ Inv s' ch' ∧
        s'.nodes.length = s.nodes.length + ops.length ∧
        (pairsOf s' (ch' 0)).Perm (pairsOf s (ch 0) ++ opPairs ops) := by
  intro ops
  induction ops with
  | nil =>
    intro s ch hwf hInv _ _ _
    refine ⟨s, ch, rfl, hwf, hInv, by simp, ?_⟩
    simp [opPairs]
  | cons t ts ih =>
    intro s ch hwf hInv hh hnd hfresh
    have hnd' : (t.1 :: opKeys ts).Nodup := hnd
    have hndc := List.nodup_cons.1 hnd'
    have hh_t := hh t (by simp)
    have hfresh_t : ∀ x ∈ ch 0, keyOf s x ≠ t.1 :=
      fun x hx => hfresh t (by simp) x hx
    rcases insert_ok s ch t.1 t.2.1 t.2.2 hInv hwf hfresh_t hh_t.1 hh_t.2 with
      ⟨s1, hrun1, hwf1, hlen1, hold1, hknew1, hvnew1, hInv1, hch1⟩
    have hfresh_ts : ∀ u ∈ ts, ∀ x ∈
        (fun m => if m < t.2.2 then spliced s t.1 s.nodes.length (ch m)
          else ch m) 0, keyOf s1 x ≠ u.1 := by
      intro u hu x hx
      have hx' : x ∈ spliced s t.1 s.nodes.length (ch 0) := by
        rw [hch1] at hx
        exact hx
      rcases mem_of_mem_spliced hx' with hx2 | hx2
      · rw [hx2, hknew1]
        intro hcontra
        refine hndc.1 ?_
        rw [hcontra]
        exact List.mem_map_of_mem _ hu
      · rw [(hold1 x (hInv.ltLen 0 x hx2)).1]
        exact hfresh u (by simp [hu]) x hx2
    rcases ih s1 _ hwf1 hInv1 (fun u hu => hh u (by simp [hu])) hndc.2
        hfresh_ts with
      ⟨s', ch', hrun, hwf', hInv', hlen', hperm⟩
    refine ⟨s', ch', ?_, hwf', hInv', ?_, ?_⟩
    · show insertOps s (t :: ts) = .ok s'
      simp only [insertOps, hrun1]
      exact hrun
    · rw [hlen', hlen1]
      simp [List.length_cons]
      omega
    · have hpairs1 : pairsOf s1 (spliced s t.1 s.nodes.length (ch 0)) =
          pairsOf s1 (lowSeg s t.1 (ch 0)) ++
            (t.1, t.2.1) :: pairsOf s1 (highSeg s t.1 (ch 0)) := by
        unfold spliced
        rw [pairsOf_append]
        unfold pairsOf
        simp only [List.map_cons]
        rw [hknew1, hvnew1]
      have hlowc : pairsOf s1 (lowSeg s t.1 (ch 0)) =
          pairsOf s (lowSeg s t.1 (ch 0)) :=
        pairsOf_congr (fun x hx =>
          hold1 x (hInv.ltLen 0 x (lowSeg_subset _ hx)))
      have hhighc : pairsOf s1 (highSeg s t.1 (ch 0)) =
          pairsOf s (highSeg s t.1 (ch 0)) :=
        pairsOf_congr (fun x hx =>
          hold1 x (hInv.ltLen 0 x (highSeg_subset _ hx)))
      have hchpairs : pairsOf s (ch 0) =
          pairsOf s (lowSeg s t.1 (ch 0)) ++
            pairsOf s (highSeg s t.1 (ch 0)) := by
        rw [← pairsOf_append, lowSeg_append_highSeg]
      have hmid1 : (pairsOf s1 (spliced s t.1 s.nodes.length (ch 0))).Perm
          ((t.1, t.2.1) :: pairsOf s (ch 0)) := by
        rw [hpairs1, hlowc, hhighc, hchpairs]
        exact List.perm_middle
      have hstep1 : (pairsOf s' (ch' 0)).Perm
          (((t.1, t.2.1) :: pairsOf s (ch 0)) ++ opPairs ts) := by
        refine hperm.trans ?_
        refine List.Perm.append_right _ ?_
        rw [if_pos (show (0:Nat) < t.2.2 by omega)]
        exact hmid1
      have hop : opPairs (t :: ts) = (t.1, t.2.1) :: opPairs ts := rfl
      refine hstep1.trans ?_
      rw [hop]
      have hfinal : ((t.1, t.2.1) :: pairsOf s (ch 0)) ++ opPairs ts =
          (t.1, t.2.1) :: (pairsOf s (ch 0) ++ opPairs ts) := by simp
      rw [hfinal]
      exact List.perm_middle.symm

theorem insertList_spec (ops : List (Int × Int × Nat))
    (hh : heightsOk ops) (hd : (opKeys ops).Nodup) :
    ∃ s' ch', insertList ops = .ok s' ∧ wfBase s' ∧ Inv s' ch' ∧
      s'.nodes.length = 1 + ops.length ∧
      (pairsOf s' (ch' 0)).Perm (opPairs ops) := by
  rcases insertOps_spec ops skipListNew (fun _ => []) wfBase_new Inv_new hh hd
      (by intro u hu x hx; cases hx) with
    ⟨s', ch', hrun, hwf, hInv, hlen, hperm⟩
  refine ⟨s', ch', hrun, hwf, hInv, by rw [hlen]; rfl, ?_⟩
  refine hperm.trans ?_
  rw [show pairsOf skipListNew [] = [] from rfl, List.nil_append]

/-! ## Traversal -/

theorem seek_to_first_eq (s : SkipList) :
    SkipListIter.seek_to_first s = some ⟨get_next s 0 0⟩ := rfl

theorem traverseFrom_chain (s : SkipList) :
    ∀ (l : List Nat) (p fuel : Nat), isChain s 0 p l → l.length ≤ fuel →
      traverseFrom s fuel (get_next s p 0) = some (pairsOf s l) := by
  intro l
  induction l with
  | nil =>
    intro p fuel hch _
    simp only [isChain] at hch
    rw [hch]
    cases fuel <;> rfl
  | cons x xs ih =>
    intro p fuel hch hfuel
    simp only [isChain] at hch
    rw [hch.1]
    cases fuel with
    | zero => simp at hfuel
    | succ f =>
      simp only [traverseFrom]
      rw [ih x f hch.2 (by simp at hfuel; omega)]
      rfl

theorem traversal_spec (s : SkipList) (ch : Nat → List Nat) (hInv : Inv s ch) :
    traversal s = some (pairsOf s (ch 0)) := by
  unfold traversal
  rw [seek_to_first_eq]
  exact traverseFrom_chain s (ch 0) 0 s.nodes.length (hInv.chain 0)
    (chain_length_le hInv 0)

theorem pairs_keys_sorted {s : SkipList} {l : List Nat}
    (h : l.Pairwise (fun a b => keyOf s a < keyOf s b)) :
    ((pairsOf s l).map Prod.fst).Sorted (· ≤ ·) := by
  unfold pairsOf
  rw [List.map_map]
  unfold List.Sorted
  refine List.Pairwise.map _ ?_ h
  intro a b hab
  exact le_of_lt hab

/-! ## find_near correctness -/

theorem dropWhile_all {α : Type} (P : α → Bool) :
    ∀ (l : List α), (∀ x ∈ l, P x = true) → l.dropWhile P = []
  | [], _ => rfl
  | a :: l, h => by
    rw [List.dropWhile_cons_of_pos (h a (by simp))]
    exact dropWhile_all P l (fun x hx => h x (by simp [hx]))

theorem suffix_chain {s : SkipList} {ch : Nat → List Nat} (hInv : Inv s ch)
    {level cur : Nat} {l₂ : List Nat}
    (hcond : cur = 0 ∧ l₂ = ch level ∨ ∃ l₁, ch level = l₁ ++ cur :: l₂) :
    isChain s level cur l₂ := by
  rcases hcond with ⟨h0, hl⟩ | ⟨l₁, hdec⟩
  · subst h0
    rw [hl]
    exact hInv.chain level
  · have hch0 : isChain s level 0 ((l₁ ++ [cur]) ++ l₂) := by
      have := hInv.chain level
      rw [hdec] at this
      simpa using this
    have := isChain_mid (l₁ ++ [cur]) hch0
    rwa [getLastD_append_left, List.getLastD_cons] at this

theorem highSeg_head_eq {s : SkipList} {kk : Int} {l : List Nat} {x : Nat}
    (hsor : l.Pairwise (fun a b => keyOf s a < keyOf s b))
    (hmem : x ∈ l) (hxk : keyOf s x = kk) :
    (highSeg s kk l).head? = some x := by
  rcases List.append_of_mem hmem with ⟨a, b, rfl⟩
  have hall : ∀ y ∈ a, decide (keyOf s y < kk) = true := by
    intro y hy
    have := (List.pairwise_append.1 hsor).2.2 y hy x (by simp)
    rw [hxk] at this
    exact decide_eq_true this
  unfold highSeg
  rw [dropWhile_append_all _ a _ hall,
    List.dropWhile_cons_of_neg (by simp [hxk])]
  rfl

theorem findNearAux_incl_fwd (s : SkipList) (ch : Nat → List Nat) (kk : Int)
    (hInv : Inv s ch) :
    ∀ (level cur : Nat) (l₂ : List Nat) (fuel : Nat),
      (cur = 0 ∧ l₂ = ch level ∨
        ∃ l₁, ch level = l₁ ++ cur :: l₂ ∧ keyOf s cur < kk) →
      (level + 1) + l₂.length + level * s.nodes.length ≤ fuel →
      findNearAux s (some kk) true false fuel cur level =
        some ((highSeg s kk (ch 0)).head?) := by
  intro level
  induction level with
  | zero =>
    intro cur l₂
    induction l₂ generalizing cur with
    | nil =>
      intro fuel hcond hfuel
      cases fuel with
      | zero => omega
      | succ f =>
        have hch := suffix_chain hInv
          (by rcases hcond with ⟨a, b⟩ | ⟨l₁, hd, _⟩
              · exact .inl ⟨a, b⟩
              · exact .inr ⟨l₁, hd⟩)
        simp only [isChain] at hch
        simp only [findNearAux, hch]
        rcases hcond with ⟨h0, hl⟩ | ⟨l₁, hdec, hklt⟩
        · rw [← hl]
          simp [highSeg]
        · have hall : ∀ y ∈ l₁ ++ [cur], decide (keyOf s y < kk) = true := by
            intro y hy
            rcases List.mem_append.1 hy with hy | hy
            · have hs0 := hInv.sorted 0
              rw [hdec] at hs0
              have hrel := (List.pairwise_append.1 hs0).2.2 y hy cur (by simp)
              exact decide_eq_true (lt_trans hrel hklt)
            · rcases List.mem_singleton.1 hy with rfl
              exact decide_eq_true hklt
          have hhigh : highSeg s kk (ch 0) = [] := by
            unfold highSeg
            rw [hdec, show l₁ ++ cur :: ([] : List Nat) = l₁ ++ [cur] by simp]
            exact dropWhile_all _ _ hall
          rw [hhigh]
          simp
    | cons x xs ihx =>
      intro fuel hcond hfuel
      cases fuel with
      | zero => omega
      | succ f =>
        have hch := suffix_chain hInv
          (by rcases hcond with ⟨a, b⟩ | ⟨l₁, hd, _⟩
              · exact .inl ⟨a, b⟩
              · exact .inr ⟨l₁, hd⟩)
        simp only [isChain] at hch
        have hx0 : x ∈ ch 0 := by
          rcases hcond with ⟨_, hl⟩ | ⟨l₁, hdec, _⟩
          · rw [← hl]; simp
          · rw [hdec]; simp
        rcases lt_trichotomy kk (keyOf s x) with hlt | heq | hgt
        · simp only [findNearAux, hch.1, icmp_eq_lt.2 hlt]
          have hxnlt : ¬ (decide (keyOf s x < kk) = true) := by
            simp only [decide_eq_true_eq]
            exact not_lt.2 (le_of_lt hlt)
          have hhead : (highSeg s kk (ch 0)).head? = some x := by
            rcases hcond with ⟨h0, hl⟩ | ⟨l₁, hdec, hklt⟩
            · rw [← hl]
              unfold highSeg
              rw [List.dropWhile_cons, if_neg hxnlt]
              rfl
            · have hall : ∀ y ∈ l₁ ++ [cur], decide (keyOf s y < kk) = true := by
                intro y hy
                rcases List.mem_append.1 hy with hy | hy
                · have hs0 := hInv.sorted 0
                  rw [hdec] at hs0
                  have hrel := (List.pairwise_append.1 hs0).2.2 y hy cur
                    (by simp)
                  exact decide_eq_true (lt_trans hrel hklt)
                · rcases List.mem_singleton.1 hy with rfl
                  exact decide_eq_true hklt
              unfold highSeg
              rw [hdec, show l₁ ++ cur :: x :: xs = (l₁ ++ [cur]) ++ x :: xs
                by simp]
              rw [dropWhile_append_all _ _ _ hall,
                List.dropWhile_cons, if_neg hxnlt]
              rfl
          rw [hhead]
          simp
        · simp only [findNearAux, hch.1, icmp_eq_eq.2 heq]
          rw [highSeg_head_eq (hInv.sorted 0) hx0 heq.symm]
          simp
        · simp only [findNearAux, hch.1, icmp_eq_gt.2 hgt]
          refine ihx x f ?_ (by simp at hfuel ⊢; omega)
          rcases hcond with ⟨h0, hl⟩ | ⟨l₁, hdec, _⟩
          · exact .inr ⟨[], by rw [← hl]; simp, hgt⟩
          · exact .inr ⟨l₁ ++ [cur], by rw [hdec]; simp, hgt⟩
  | succ lev ihl =>
    intro cur l₂
    induction l₂ generalizing cur with
    | nil =>
      intro fuel hcond hfuel
      cases fuel with
      | zero => omega
      | succ f =>
        have hch := suffix_chain hInv
          (by rcases hcond with ⟨a, b⟩ | ⟨l₁, hd, _⟩
              · exact .inl ⟨a, b⟩
              · exact .inr ⟨l₁, hd⟩)
        simp only [isChain] at hch
        simp only [findNearAux, hch]
        rw [if_pos (by omega)]
        have hstep : lev + 1 - 1 = lev := by omega
        rw [hstep]
        rcases hcond with ⟨h0, _⟩ | ⟨l₁, hdec, hklt⟩
        · subst h0
          refine ihl 0 (ch lev) f (.inl ⟨rfl, rfl⟩) ?_
          have hb := chain_length_le hInv lev
          have hmul : (lev + 1) * s.nodes.length =
              lev * s.nodes.length + s.nodes.length := by ring
          simp at hfuel ⊢
          omega
        · have hcur_mem : cur ∈ ch (lev + 1) := by rw [hdec]; simp
          have hcur_lev : cur ∈ ch lev := hInv.sub lev cur hcur_mem
          rcases List.append_of_mem hcur_lev with ⟨a, b, hdec2⟩
          refine ihl cur b f (.inr ⟨a, hdec2, hklt⟩) ?_
          have hb : b.length ≤ (ch lev).length := by
            rw [hdec2]; simp; omega
          have hb2 := chain_length_le hInv lev
          have hmul : (lev + 1) * s.nodes.length =
              lev * s.nodes.length + s.nodes.length := by ring
          simp at hfuel ⊢
          omega
    | cons x xs ihx =>
      intro fuel hcond hfuel
      cases fuel with
      | zero => omega
      | succ f =>
        have hch := suffix_chain hInv
          (by rcases hcond with ⟨a, b⟩ | ⟨l₁, hd, _⟩
              · exact .inl ⟨a, b⟩
              · exact .inr ⟨l₁, hd⟩)
        simp only [isChain] at hch
        have hxlev : x ∈ ch (lev+1) := by
          rcases hcond with ⟨_, hl⟩ | ⟨l₁, hdec, _⟩
          · rw [← hl]; simp
          · rw [hdec]; simp
        have hx0 : x ∈ ch 0 := mem_chain_zero hInv _ x hxlev
        have hdesc_ok : ∀ fcur,
            (fcur = 0 ∨ fcur ∈ ch (lev+1) ∧ keyOf s fcur < kk) →
            findNearAux s (some kk) true false f fcur lev =
            some ((highSeg s kk (ch 0)).head?) := by
          intro fcur hfc
          rcases hfc with h0 | ⟨hmem, hklt⟩
          · subst h0
            refine ihl 0 (ch lev) f (.inl ⟨rfl, rfl⟩) ?_
            have hb := chain_length_le hInv lev
            have hmul : (lev + 1) * s.nodes.length =
                lev * s.nodes.length + s.nodes.length := by ring
            simp at hfuel ⊢
            omega
          · have hmem2 : fcur ∈ ch lev := hInv.sub lev fcur hmem
            rcases List.append_of_mem hmem2 with ⟨a, b, hdec2⟩
            refine ihl fcur b f (.inr ⟨a, hdec2, hklt⟩) ?_
            have hb : b.length ≤ (ch lev).length := by
              rw [hdec2]; simp; omega
            have hb2 := chain_length_le hInv lev
            have hmul : (lev + 1) * s.nodes.length =
                lev * s.nodes.length + s.nodes.length := by ring
            simp at hfuel ⊢
            omega
        have hcur_alt : cur = 0 ∨ cur ∈ ch (lev+1) ∧ keyOf s cur < kk := by
          rcases hcond with ⟨h0, _⟩ | ⟨l₁, hdec, hklt⟩
          · exact .inl h0
          · exact .inr ⟨by rw [hdec]; simp, hklt⟩
        rcases lt_trichotomy kk (keyOf s x) with hlt | heq | hgt
        · simp only [findNearAux, hch.1, icmp_eq_lt.2 hlt]
          rw [if_pos (by omega), show lev + 1 - 1 = lev by omega]
          exact hdesc_ok cur hcur_alt
        · simp only [findNearAux, hch.1, icmp_eq_eq.2 heq]
          rw [highSeg_head_eq (hInv.sorted 0) hx0 heq.symm]
          simp
        · simp only [findNearAux, hch.1, icmp_eq_gt.2 hgt]
          refine ihx x f ?_ (by simp at hfuel ⊢; omega)
          rcases hcond with ⟨h0, hl⟩ | ⟨l₁, hdec, _⟩
          · exact .inr ⟨[], by rw [← hl]; simp, hgt⟩
          · exact .inr ⟨l₁ ++ [cur], by rw [hdec]; simp, hgt⟩

theorem seek_spec (s : SkipList) (ch : Nat → List Nat) (kk : Int)
    (hInv : Inv s ch) (hwf : wfBase s) :
    SkipListIter.seek s kk = some ⟨(highSeg s kk (ch 0)).head?⟩ := by
  obtain ⟨H', hH'⟩ : ∃ H', s.height = H' + 1 := ⟨s.height - 1, by
    have := hwf.1
    omega⟩
  have hfuel : (s.height - 1 + 1) + (ch (s.height - 1)).length +
      (s.height - 1) * s.nodes.length ≤
      s.height * (s.nodes.length + 1) + 1 := by
    have hb := chain_length_le hInv (s.height - 1)
    rw [hH']
    simp only [Nat.add_sub_cancel]
    have hmul : (H' + 1) * (s.nodes.length + 1) =
        H' * s.nodes.length + H' + s.nodes.length + 1 := by ring
    rw [hH'] at hb
    simp only [Nat.add_sub_cancel] at hb
    omega
  have hrun := findNearAux_incl_fwd s ch kk hInv (s.height - 1) 0
    (ch (s.height - 1)) (s.height * (s.nodes.length + 1) + 1)
    (.inl ⟨rfl, rfl⟩) hfuel
  unfold SkipListIter.seek find_near
  simp only
  rw [hrun]
  rfl

theorem findNearAux_excl_rev (s : SkipList) (ch : Nat → List Nat) (kk : Int)
    (hInv : Inv s ch) :
    ∀ (level cur : Nat) (l₂ : List Nat) (fuel : Nat),
      (cur = 0 ∧ l₂ = ch level ∨
        ∃ l₁, ch level = l₁ ++ cur :: l₂ ∧ keyOf s cur < kk) →
      (level + 1) + l₂.length + level * s.nodes.length ≤ fuel →
      findNearAux s (some kk) false true fuel cur level =
        some ((lowSeg s kk (ch 0)).getLast?) := by
  intro level
  induction level with
  | zero =>
    intro cur l₂
    induction l₂ generalizing cur with
    | nil =>
      intro fuel hcond hfuel
      cases fuel with
      | zero => omega
      | succ f =>
        have hch := suffix_chain hInv
          (by rcases hcond with ⟨a, b⟩ | ⟨l₁, hd, _⟩
              · exact .inl ⟨a, b⟩
              · exact .inr ⟨l₁, hd⟩)
        simp only [isChain] at hch
        simp only [findNearAux, hch]
        rcases hcond with ⟨h0, hl⟩ | ⟨l₁, hdec, hklt⟩
        · rw [← hl, h0]
          simp [lowSeg]
        · have hcur0 : cur ≠ 0 := by
            refine hInv.ne0 0 cur ?_
            rw [hdec]
            simp
          have hall : ∀ y ∈ l₁ ++ [cur], decide (keyOf s y < kk) = true := by
            intro y hy
            rcases List.mem_append.1 hy with hy | hy
            · have hs0 := hInv.sorted 0
              rw [hdec] at hs0
              have hrel := (List.pairwise_append.1 hs0).2.2 y hy cur (by simp)
              exact decide_eq_true (lt_trans hrel hklt)
            · rcases List.mem_singleton.1 hy with rfl
              exact decide_eq_true hklt
          have hlow : lowSeg s kk (ch 0) = l₁ ++ [cur] := by
            unfold lowSeg
            rw [hdec, show l₁ ++ cur :: ([] : List Nat) = l₁ ++ [cur] by simp]
            exact takeWhile_all _ _ hall
          rw [hlow, List.getLast?_concat]
          simp [hcur0]
    | cons x xs ihx =>
      intro fuel hcond hfuel
      cases fuel with
      | zero => omega
      | succ f =>
        have hch := suffix_chain hInv
          (by rcases hcond with ⟨a, b⟩ | ⟨l₁, hd, _⟩
              · exact .inl ⟨a, b⟩
              · exact .inr ⟨l₁, hd⟩)
        simp only [isChain] at hch
        rcases lt_trichotomy kk (keyOf s x) with hlt | heq | hgt
        · -- Less branch, level 0, reverse
          simp only [findNearAux, hch.1, icmp_eq_lt.2 hlt]
          have hxnlt : ¬ (decide (keyOf s x < kk) = true) := by
            simp only [decide_eq_true_eq]
            exact not_lt.2 (le_of_lt hlt)
          rcases hcond with ⟨h0, hl⟩ | ⟨l₁, hdec, hklt⟩
          · rw [← hl, h0]
            unfold lowSeg
            rw [List.takeWhile_cons, if_neg hxnlt]
            simp
          · have hcur0 : cur ≠ 0 := by
              refine hInv.ne0 0 cur ?_
              rw [hdec]
              simp
            have hall : ∀ y ∈ l₁ ++ [cur], decide (keyOf s y < kk) = true := by
              intro y hy
              rcases List.mem_append.1 hy with hy | hy
              · have hs0 := hInv.sorted 0
                rw [hdec] at hs0
                have hrel := (List.pairwise_append.1 hs0).2.2 y hy cur
                  (by simp)
                exact decide_eq_true (lt_trans hrel hklt)
              · rcases List.mem_singleton.1 hy with rfl
                exact decide_eq_true hklt
            have hlow : lowSeg s kk (ch 0) = l₁ ++ [cur] := by
              unfold lowSeg
              rw [hdec, show l₁ ++ cur :: x :: xs = (l₁ ++ [cur]) ++ x :: xs
                by simp]
              rw [takeWhile_append_all _ _ _ hall, List.takeWhile_cons,
                if_neg hxnlt]
              simp
            rw [hlow, List.getLast?_concat]
            simp [hcur0]
        · -- Equal branch, excluded, reverse, level 0
          simp only [findNearAux, hch.1, icmp_eq_eq.2 heq]
          have hxnlt : ¬ (decide (keyOf s x < kk) = true) := by
            simp only [decide_eq_true_eq]
            rw [← heq]
            exact lt_irrefl kk
          rcases hcond with ⟨h0, hl⟩ | ⟨l₁, hdec, hklt⟩
          · rw [← hl, h0]
            unfold lowSeg
            rw [List.takeWhile_cons, if_neg hxnlt]
            simp
          · have hcur0 : cur ≠ 0 := by
              refine hInv.ne0 0 cur ?_
              rw [hdec]
              simp
            have hall : ∀ y ∈ l₁ ++ [cur], decide (keyOf s y < kk) = true := by
              intro y hy
              rcases List.mem_append.1 hy with hy | hy
              · have hs0 := hInv.sorted 0
                rw [hdec] at hs0
                have hrel := (List.pairwise_append.1 hs0).2.2 y hy cur
                  (by simp)
                exact decide_eq_true (lt_trans hrel hklt)
              · rcases List.mem_singleton.1 hy with rfl
                exact decide_eq_true hklt
            have hlow : lowSeg s kk (ch 0) = l₁ ++ [cur] := by
              unfold lowSeg
              rw [hdec, show l₁ ++ cur :: x :: xs = (l₁ ++ [cur]) ++ x :: xs
                by simp]
              rw [takeWhile_append_all _ _ _ hall, List.takeWhile_cons,
                if_neg hxnlt]
              simp
            rw [hlow, List.getLast?_concat]
            simp [hcur0]
        · simp only [findNearAux, hch.1, icmp_eq_gt.2 hgt]
          refine ihx x f ?_ (by simp at hfuel ⊢; omega)
          rcases hcond with ⟨h0, hl⟩ | ⟨l₁, hdec, _⟩
          · exact .inr ⟨[], by rw [← hl]; simp, hgt⟩
          · exact .inr ⟨l₁ ++ [cur], by rw [hdec]; simp, hgt⟩
  | succ lev ihl =>
    intro cur l₂
    induction l₂ generalizing cur with
    | nil =>
      intro fuel hcond hfuel
      cases fuel with
      | zero => omega
      | succ f =>
        have hch := suffix_chain hInv
          (by rcases hcond with ⟨a, b⟩ | ⟨l₁, hd, _⟩
              · exact .inl ⟨a, b⟩
              · exact .inr ⟨l₁, hd⟩)
        simp only [isChain] at hch
        simp only [findNearAux, hch]
        rw [if_pos (by omega), show lev + 1 - 1 = lev by omega]
        rcases hcond with ⟨h0, _⟩ | ⟨l₁, hdec, hklt⟩
        · subst h0
          refine ihl 0 (ch lev) f (.inl ⟨rfl, rfl⟩) ?_
          have hb := chain_length_le hInv lev
          have hmul : (lev + 1) * s.nodes.length =
              lev * s.nodes.length + s.nodes.length := by ring
          simp at hfuel ⊢
          omega
        · have hcur_mem : cur ∈ ch (lev + 1) := by rw [hdec]; simp
          have hcur_lev : cur ∈ ch lev := hInv.sub lev cur hcur_mem
          rcases List.append_of_mem hcur_lev with ⟨a, b, hdec2⟩
          refine ihl cur b f (.inr ⟨a, hdec2, hklt⟩) ?_
          have hb : b.length ≤ (ch lev).length := by
            rw [hdec2]; simp; omega
          have hb2 := chain_length_le hInv lev
          have hmul : (lev + 1) * s.nodes.length =
              lev * s.nodes.length + s.nodes.length := by ring
          simp at hfuel ⊢
          omega
    | cons x xs ihx =>
      intro fuel hcond hfuel
      cases fuel with
      | zero => omega
      | succ f =>
        have hch := suffix_chain hInv
          (by rcases hcond with ⟨a, b⟩ | ⟨l₁, hd, _⟩
              · exact .inl ⟨a, b⟩
              · exact .inr ⟨l₁, hd⟩)
        simp only [isChain] at hch
        have hdesc_ok : ∀ fcur,
            (fcur = 0 ∨ fcur ∈ ch (lev+1) ∧ keyOf s fcur < kk) →
            findNearAux s (some kk) false true f fcur lev =
            some ((lowSeg s kk (ch 0)).getLast?) := by
          intro fcur hfc
          rcases hfc with h0 | ⟨hmem, hklt⟩
          · subst h0
            refine ihl 0 (ch lev) f (.inl ⟨rfl, rfl⟩) ?_
            have hb := chain_length_le hInv lev
            have hmul : (lev + 1) * s.nodes.length =
                lev * s.nodes.length + s.nodes.length := by ring
            simp at hfuel ⊢
            omega
          · have hmem2 : fcur ∈ ch lev := hInv.sub lev fcur hmem
            rcases List.append_of_mem hmem2 with ⟨a, b, hdec2⟩
            refine ihl fcur b f (.inr ⟨a, hdec2, hklt⟩) ?_
            have hb : b.length ≤ (ch lev).length := by
              rw [hdec2]; simp; omega
            have hb2 := chain_length_le hInv lev
            have hmul : (lev + 1) * s.nodes.length =
                lev * s.nodes.length + s.nodes.length := by ring
            simp at hfuel ⊢
            omega
        have hcur_alt : cur = 0 ∨ cur ∈ ch (lev+1) ∧ keyOf s cur < kk := by
          rcases hcond with ⟨h0, _⟩ | ⟨l₁, hdec, hklt⟩
          · exact .inl h0
          · exact .inr ⟨by rw [hdec]; simp, hklt⟩
        rcases lt_trichotomy kk (keyOf s x) with hlt | heq | hgt
        · simp only [findNearAux, hch.1, icmp_eq_lt.2 hlt]
          rw [if_pos (by omega), show lev + 1 - 1 = lev by omega]
          exact hdesc_ok cur hcur_alt
        · simp only [findNearAux, hch.1, icmp_eq_eq.2 heq]
          rw [if_neg (by simp), if_neg (by simp), if_pos (by omega),
            show lev + 1 - 1 = lev by omega]
          exact hdesc_ok cur hcur_alt
        · simp only [findNearAux, hch.1, icmp_eq_gt.2 hgt]
          refine ihx x f ?_ (by simp at hfuel ⊢; omega)
          rcases hcond with ⟨h0, hl⟩ | ⟨l₁, hdec, _⟩
          · exact .inr ⟨[], by rw [← hl]; simp, hgt⟩
          · exact .inr ⟨l₁ ++ [cur], by rw [hdec]; simp, hgt⟩

theorem find_near_fuel (s : SkipList) (ch : Nat → List Nat)
    (hInv : Inv s ch) (hwf : wfBase s) :
    (s.height - 1 + 1) + (ch (s.height - 1)).length +
      (s.height - 1) * s.nodes.length ≤
      s.height * (s.nodes.length + 1) + 1 := by
  obtain ⟨H', hH'⟩ : ∃ H', s.height = H' + 1 := ⟨s.height - 1, by
    have := hwf.1
    omega⟩
  have hb := chain_length_le hInv (s.height - 1)
  rw [hH']
  simp only [Nat.add_sub_cancel]
  have hmul : (H' + 1) * (s.nodes.length + 1) =
      H' * s.nodes.length + H' + s.nodes.length + 1 := by ring
  rw [hH'] at hb
  simp only [Nat.add_sub_cancel] at hb
  omega

theorem prev_spec (s : SkipList) (ch : Nat → List Nat)
    (hInv : Inv s ch) (hwf : wfBase s) (i : Nat) :
    SkipListIter.prev s ⟨some i⟩ =
      some ⟨(lowSeg s (keyOf s i) (ch 0)).getLast?⟩ := by
  unfold SkipListIter.prev find_near
  simp only
  rw [findNearAux_excl_rev s ch (keyOf s i) hInv (s.height - 1) 0
    (ch (s.height - 1)) (s.height * (s.nodes.length + 1) + 1)
    (.inl ⟨rfl, rfl⟩) (find_near_fuel s ch hInv hwf)]
  rfl

theorem getLast?_of_ne_nil {α : Type} {l : List α} (h : l ≠ []) (d : α) :
    l.getLast? = some (l.getLastD d) := by
  cases l with
  | nil => exact absurd rfl h
  | cons a l =>
    rw [List.getLastD_cons]
    clear h
    induction l generalizing a with
    | nil => rfl
    | cons b l ih =>
      rw [List.getLastD_cons]
      rw [show (a :: b :: l).getLast? = (b :: l).getLast? by
        simp [List.getLast?]]
      exact ih b

theorem keys_perm_of_pairs_perm {s : SkipList} {l : List Nat}
    {ops : List (Int × Int × Nat)} (h : (pairsOf s l).Perm (opPairs ops)) :
    (l.map (keyOf s)).Perm (opKeys ops) := by
  have := h.map Prod.fst
  unfold pairsOf opPairs at this
  rw [List.map_map, List.map_map] at this
  exact this

theorem sorted_head_le {s : SkipList} {l : List Nat} {y z : Nat}
    {ys : List Nat}
    (hsor : l.Pairwise (fun a b => keyOf s a < keyOf s b))
    (hl : l = y :: ys) (hz : z ∈ l) : keyOf s y ≤ keyOf s z := by
  subst hl
  rcases List.mem_cons.1 hz with rfl | hz
  · exact le_refl _
  · exact le_of_lt ((List.pairwise_cons.1 hsor).1 z hz)

/-! ## Arena lemmas -/

theorem is_power_of_two_pos {a : Nat} (h : is_power_of_two a = true) :
    0 < a := by
  unfold is_power_of_two at h
  rcases List.any_eq_true.1 h with ⟨k, _, hk⟩
  have ha : a = 2 ^ k := by simpa using hk
  rw [ha]
  exact Nat.pos_pow_of_pos _ (by omega)

theorem align_up_mod (p a : Nat) (ha : 0 < a) : (align_up p a).2 % a = 0 := by
  unfold align_up
  simp only
  rcases Nat.eq_zero_or_pos (p % a) with h0 | hpos
  · rw [h0, Nat.sub_zero, Nat.mod_self, Nat.add_zero]
    exact h0
  · have hr : p % a < a := Nat.mod_lt _ ha
    have hslop : (a - p % a) % a = a - p % a := Nat.mod_eq_of_lt (by omega)
    rw [hslop, Nat.add_mod]
    have hsum : p % a + (a - p % a) % a = a := by
      rw [hslop]; omega
    rw [hsum, Nat.mod_self]

theorem alloc_mems_usage (st : BlockArenaInner) (size align base p : Nat)
    (st' : BlockArenaInner) (hrun : alloc st size align base = .ok (p, st')) :
    ∃ delta, st'.mems = st.mems ++ delta ∧
      st'.memory_usage = st.memory_usage + (delta.map (fun sl => sl.2)).sum := by
  unfold alloc at hrun
  by_cases hpow : is_power_of_two align = false
  · rw [if_pos hpow] at hrun
    cases hrun
  · rw [if_neg hpow] at hrun
    simp only at hrun
    by_cases hbig : NO_BLOCK_LIMIT < (align_up st.ptr align).1 + size
    · rw [if_pos hbig] at hrun
      unfold alloc_new_block at hrun
      simp only at hrun
      cases hrun
      refine ⟨[(base, (size + ITEM_SIZE - 1) / ITEM_SIZE * ITEM_SIZE)],
        rfl, by simp⟩
    · rw [if_neg hbig] at hrun
      by_cases hrem : st.remaining_size < (align_up st.ptr align).1 + size
      · rw [if_pos hrem] at hrun
        unfold reload_block at hrun
        simp only at hrun
        by_cases hfit : BLOCK_SIZE * ITEM_SIZE <
            (align_up base align).1 + size
        · rw [if_pos hfit] at hrun
          cases hrun
        · rw [if_neg hfit] at hrun
          cases hrun
          refine ⟨[(base, BLOCK_SIZE * ITEM_SIZE)], rfl, by simp⟩
      · rw [if_neg hrem] at hrun
        cases hrun
        exact ⟨[], by simp, by simp⟩

theorem alloc_usage_mono (st : BlockArenaInner) (size align base p : Nat)
    (st' : BlockArenaInner) (hrun : alloc st size align base = .ok (p, st')) :
    st.memory_usage ≤ st'.memory_usage := by
  rcases alloc_mems_usage st size align base p st' hrun with ⟨delta, _, husage⟩
  rw [husage]
  omega

theorem allocSeq_usage_mono :
    ∀ (reqs : List (Nat × Nat × Nat)) (st st' : BlockArenaInner),
      allocSeq st reqs = .ok st' → st.memory_usage ≤ st'.memory_usage := by
  intro reqs
  induction reqs with
  | nil =>
    intro st st' hrun
    cases hrun
    exact le_refl _
  | cons r rs ih =>
    intro st st' hrun
    unfold allocSeq at hrun
    cases hstep : alloc st r.1 r.2.1 r.2.2 with
    | error e => rw [hstep] at hrun; cases hrun
    | ok pst =>
      rw [hstep] at hrun
      have h1 := alloc_usage_mono st r.1 r.2.1 r.2.2 pst.1 pst.2
        (by rw [hstep])
      exact le_trans h1 (ih pst.2 st' hrun)

/-! # Claim theorems -/

/-- C9: the arena's memory_usage counter never decreases across any sequence
of alloc calls, and each successful alloc appends some (possibly empty) run
of slabs to the slab vector and increases memory_usage by exactly the sum of
the appended slabs' byte lengths (arena.rs reload_block line 113,
alloc_new_block line 124). -/
theorem c9_memory_usage_monotone :
    (∀ (reqs : List (Nat × Nat × Nat)) (st st' : BlockArenaInner),
      allocSeq st reqs = .ok st' → st.memory_usage ≤ st'.memory_usage) ∧
    (∀ (st : BlockArenaInner) (size align base p : Nat)
      (st' : BlockArenaInner), alloc st size align base = .ok (p, st') →
      ∃ delta, st'.mems = st.mems ++ delta ∧
        st'.memory_usage = st.memory_usage +
          (delta.map (fun sl => sl.2)).sum) :=
  ⟨allocSeq_usage_mono, alloc_mems_usage⟩

/-- C9 witness: the monotonicity and exact-increment facts evaluated on a
concrete allocation from the fresh arena. -/
theorem c9_witness :
    arenaNew.memory_usage ≤
      (BlockArenaInner.mk [(4096, 4096)] 4112 4080 4096).memory_usage ∧
    ∃ delta, (BlockArenaInner.mk [(4096, 4096)] 4112 4080 4096).mems =
        arenaNew.mems ++ delta ∧
      (BlockArenaInner.mk [(4096, 4096)] 4112 4080 4096).memory_usage =
        arenaNew.memory_usage + (delta.map (fun sl => sl.2)).sum :=
  ⟨c9_memory_usage_monotone.1 [(16, 8, 4096)] arenaNew _ (by rfl),
   c9_memory_usage_monotone.2 arenaNew 16 8 4096 4096 _ (by rfl)⟩

/-- C5 counterexample: from the fresh arena, a 2048-byte request with
16-byte alignment takes the oversize-slab path (arena.rs lines 77-81) and
returns the slab base verbatim.  A host heap may legally return the 8-aligned
address 8 for the backing Vec of u64 (Rust only guarantees
align_of::<u64>() = 8), and 8 is not 16-aligned, so the returned pointer
violates the requested alignment. -/
theorem c5_claim_counterexample :
    (alloc arenaNew 2048 16 8).map (fun r => r.1 % 16 == 0) = .ok false := by
  rfl

/-- C5 (amended): a pointer returned on the standard-slab path (with or
without a slab reload) satisfies the requested power-of-two alignment via the
align_up fix-up; a pointer returned on the oversize-slab path (post-alignment
footprint above NO_BLOCK_LIMIT) is only guaranteed to be ITEM_SIZE = 8
aligned (the slab base of a Vec of u64, arena.rs comment line 78), so the
request is honoured exactly when the requested alignment divides 8. -/
theorem c5_alignment_amended (st : BlockArenaInner) (size align base p : Nat)
    (st' : BlockArenaInner) (hbase : ITEM_SIZE ∣ base)
    (hrun : alloc st size align base = .ok (p, st')) :
    ((align_up st.ptr align).1 + size ≤ NO_BLOCK_LIMIT → p % align = 0) ∧
    (NO_BLOCK_LIMIT < (align_up st.ptr align).1 + size →
      p % ITEM_SIZE = 0) := by
  unfold alloc at hrun
  by_cases hpow : is_power_of_two align = false
  · rw [if_pos hpow] at hrun
    cases hrun
  · rw [if_neg hpow] at hrun
    simp only at hrun
    have hapos : 0 < align :=
      is_power_of_two_pos (by
        cases hb : is_power_of_two align
        · exact absurd hb hpow
        · rfl)
    by_cases hbig : NO_BLOCK_LIMIT < (align_up st.ptr align).1 + size
    · rw [if_pos hbig] at hrun
      unfold alloc_new_block at hrun
      simp only at hrun
      cases hrun
      refine ⟨fun hcontra => by omega, fun _ => ?_⟩
      exact Nat.mod_eq_zero_of_dvd hbase
    · rw [if_neg hbig] at hrun
      by_cases hrem : st.remaining_size < (align_up st.ptr align).1 + size
      · rw [if_pos hrem] at hrun
        unfold reload_block at hrun
        simp only at hrun
        by_cases hfit : BLOCK_SIZE * ITEM_SIZE <
            (align_up base align).1 + size
        · rw [if_pos hfit] at hrun
          cases hrun
        · rw [if_neg hfit] at hrun
          cases hrun
          exact ⟨fun _ => align_up_mod base align hapos,
            fun hcontra => by omega⟩
      · rw [if_neg hrem] at hrun
        cases hrun
        exact ⟨fun _ => align_up_mod st.ptr align hapos,
          fun hcontra => by omega⟩

/-- C5 witness: the amended theorem applied to a concrete standard-path
allocation (16 bytes, 8-aligned, fresh slab at base 4096). -/
theorem c5_witness :
    ((align_up arenaNew.ptr 8).1 + 16 ≤ NO_BLOCK_LIMIT → 4096 % 8 = 0) ∧
    (NO_BLOCK_LIMIT < (align_up arenaNew.ptr 8).1 + 16 →
      4096 % ITEM_SIZE = 0) :=
  c5_alignment_amended arenaNew 16 8 4096 4096
    (BlockArenaInner.mk [(4096, 4096)] 4112 4080 4096) (by decide) (by rfl)

/-- C6: an allocation whose post-alignment footprint exceeds
NO_BLOCK_LIMIT = 1024 bytes is served from a freshly appended dedicated slab
of ceil(size/8)*8 bytes, bumps memory_usage by exactly that length, and
leaves the bump cursor and the remaining byte count of the open standard
slab untouched, so a subsequent small allocation that fits is carved from
the pre-existing standard slab at the old cursor (arena.rs lines 77-81,
116-127). -/
theorem c6_big_object_frame (st : BlockArenaInner) (size align base : Nat)
    (hpow : is_power_of_two align = true)
    (hbig : NO_BLOCK_LIMIT < (align_up st.ptr align).1 + size) :
    ∃ st', alloc st size align base = .ok (base, st') ∧
      st'.ptr = st.ptr ∧ st'.remaining_size = st.remaining_size ∧
      st'.mems = st.mems ++
        [(base, (size + ITEM_SIZE - 1) / ITEM_SIZE * ITEM_SIZE)] ∧
      st'.memory_usage = st.memory_usage +
        (size + ITEM_SIZE - 1) / ITEM_SIZE * ITEM_SIZE ∧
      (∀ size2 align2 base2, is_power_of_two align2 = true →
        (align_up st.ptr align2).1 + size2 ≤ NO_BLOCK_LIMIT →
        (align_up st.ptr align2).1 + size2 ≤ st.remaining_size →
        ∃ st2, alloc st' size2 align2 base2 =
          .ok ((align_up st.ptr align2).2, st2)) := by
  have hstep : alloc st size align base = .ok (base,
      { st with
        mems := st.mems ++ [(base, (size + ITEM_SIZE - 1) / ITEM_SIZE * ITEM_SIZE)],
        memory_usage := st.memory_usage + (size + ITEM_SIZE - 1) / ITEM_SIZE * ITEM_SIZE }) := by
    unfold alloc
    rw [if_neg (by rw [hpow]; simp), if_pos hbig]
    rfl
  refine ⟨_, hstep, rfl, rfl, rfl, rfl, ?_⟩
  intro size2 align2 base2 hpow2 hsmall hfits
  unfold alloc
  rw [if_neg (by rw [hpow2]; simp)]
  simp only
  rw [if_neg (by omega), if_neg (by omega)]
  exact ⟨_, rfl⟩

/-- C6 witness: a concrete 2048-byte, 8-aligned oversize allocation from a
state with an open standard slab, followed by a small allocation that
continues from the old cursor. -/
theorem c6_witness :
    ∃ st', alloc (BlockArenaInner.mk [(4096, 4096)] 4112 4080 4096)
        2048 8 9000 = .ok (9000, st') ∧
      st'.ptr = 4112 ∧ st'.remaining_size = 4080 ∧
      st'.mems = [(4096, 4096)] ++ [(9000, (2048 + ITEM_SIZE - 1) /
        ITEM_SIZE * ITEM_SIZE)] ∧
      st'.memory_usage = 4096 + (2048 + ITEM_SIZE - 1) /
        ITEM_SIZE * ITEM_SIZE ∧
      (∀ size2 align2 base2, is_power_of_two align2 = true →
        (align_up (4112 : Nat) align2).1 + size2 ≤ NO_BLOCK_LIMIT →
        (align_up (4112 : Nat) align2).1 + size2 ≤ 4080 →
        ∃ st2, alloc st' size2 align2 base2 =
          .ok ((align_up (4112 : Nat) align2).2, st2)) :=
  c6_big_object_frame (BlockArenaInner.mk [(4096, 4096)] 4112 4080 4096)
    2048 8 9000 (by rfl) (by decide)

theorem nextN_chain (s : SkipList) :
    ∀ (l : List Nat) (p : Nat), isChain s 0 p l →
      ∀ m, m ≤ l.length →
        nextN s m ⟨get_next s p 0⟩ = some ⟨(l.drop m).head?⟩ := by
  intro l
  induction l with
  | nil =>
    intro p hch m hm
    have hm0 : m = 0 := by simpa using hm
    subst hm0
    simp only [isChain] at hch
    rw [hch]
    rfl
  | cons x xs ih =>
    intro p hch m hm
    simp only [isChain] at hch
    rw [hch.1]
    cases m with
    | zero => rfl
    | succ m' =>
      show nextN s (m'+1) ⟨some x⟩ = _
      simp only [nextN, SkipListIter.next]
      rw [ih x hch.2 m' (by simp at hm; omega)]
      rfl

theorem nextN_succ (s : SkipList) :
    ∀ (n : Nat) (it : SkipListIter),
      nextN s (n+1) it = (nextN s n it).bind (SkipListIter.next s) := by
  intro n
  induction n with
  | zero =>
    intro it
    cases h : SkipListIter.next s it <;> simp [nextN, h]
  | succ n ih =>
    intro it
    cases h : SkipListIter.next s it with
    | none =>
      simp only [nextN, h]
      rfl
    | some it' =>
      simp only [nextN, h]
      show nextN s (n+1) it' = _
      exact ih it'

/-- C1 counterexample: the claim quantifies over every insertion sequence,
but a sequence that repeats a key cannot even complete: the second insertion
of key 1 trips assert_ne in SkipList::insert (skip_list.rs line 190), so no
final list and no traversal exist for it. -/
theorem c1_claim_counterexample :
    ¬ ∃ s l, insertList [(1, 10, 1), (1, 20, 1)] = .ok s ∧
      traversal s = some l ∧ (l.map Prod.fst).Sorted (· ≤ ·) ∧
      l.Perm (opPairs [(1, 10, 1), (1, 20, 1)]) := by
  rintro ⟨s, l, hrun, -⟩
  have heval : insertList [(1, 10, 1), (1, 20, 1)] = .error .assertNe := by rfl
  rw [heval] at hrun
  cases hrun

/-- C1 (amended): for every sequence of insertions with pairwise-distinct
keys (duplicate keys abort insert, see the counterexample), the forward
traversal from seek_to_first visits keys in comparator non-decreasing order
and visits every inserted (key, value) pair exactly once. -/
theorem c1_traversal_sorted_complete (ops : List (Int × Int × Nat))
    (hh : heightsOk ops) (hd : (opKeys ops).Nodup) :
    ∃ s l, insertList ops = .ok s ∧ traversal s = some l ∧
      (l.map Prod.fst).Sorted (· ≤ ·) ∧ l.Perm (opPairs ops) := by
  rcases insertList_spec ops hh hd with ⟨s, ch, hrun, hwf, hInv, hlen, hperm⟩
  exact ⟨s, pairsOf s (ch 0), hrun, traversal_spec s ch hInv,
    pairs_keys_sorted (hInv.sorted 0), hperm⟩

/-- C1 witness: the amended theorem evaluated on the two-element sequence
inserting keys 2 then 1. -/
theorem c1_witness :
    ∃ s l, insertList [(2, 20, 1), (1, 10, 2)] = .ok s ∧
      traversal s = some l ∧ (l.map Prod.fst).Sorted (· ≤ ·) ∧
      l.Perm (opPairs [(2, 20, 1), (1, 10, 2)]) :=
  c1_traversal_sorted_complete [(2, 20, 1), (1, 10, 2)]
    (by unfold heightsOk; decide) (by decide)

/-- C2: inserting a key that is already present does not complete - the
top-down phase of SkipList::insert hits assert_ne!(prev[level], next[level])
(skip_list.rs line 190) because find_node_prev_next returns the (next, next)
pair on an Equal comparison (line 252), and the process aborts.  The first
conjunct shows a single insertion succeeds; the second shows the repeat
insertion of key 1 panics with that assert. -/
theorem c2_duplicate_insert_panics :
    (insertList [(1, 10, 1)]).isOk = true ∧
    insertList [(1, 10, 1), (1, 20, 1)] = .error .assertNe := by
  exact ⟨by rfl, by rfl⟩

/-- C3: the Drop impl for SkipList (skip_list.rs lines 268-280) walks the
level-0 chain under the guard `while cur.is_null()`.  On an empty list cur
is null, the body runs and dereferences the null cursor (modelled none); on
a non-empty list the guard is false at once and no node destructor runs
(modelled some [] - the list of destructed nodes is empty even though one
node was inserted). -/
theorem c3_drop_runs_no_destructor :
    dropRun skipListNew = none ∧
    (insertList [(1, 2, 1)]).map dropRun = .ok (some []) := by
  exact ⟨by rfl, by rfl⟩

/-- C10: the iterator accessors key and value (skip_list.rs lines 313-327)
return None exactly when the cursor is invalid, return Some of the current
node's key and value when it is valid, and never dereference an invalid
cursor (they are total in the model precisely because the null check guards
the dereference). -/
theorem c10_key_value_none_iff_invalid (s : SkipList) (it : SkipListIter) :
    (SkipListIter.key s it = none ↔ SkipListIter.is_valid it = false) ∧
    (SkipListIter.value s it = none ↔ SkipListIter.is_valid it = false) ∧
    (∀ i, it.cur = some i → SkipListIter.key s it = some (keyOf s i) ∧
      SkipListIter.value s it = some (valueOf s i)) := by
  cases it with
  | mk cur =>
    cases cur with
    | none =>
      refine ⟨by simp [SkipListIter.key, SkipListIter.is_valid],
        by simp [SkipListIter.value, SkipListIter.is_valid], ?_⟩
      intro i hi
      cases hi
    | some j =>
      refine ⟨by simp [SkipListIter.key, SkipListIter.is_valid],
        by simp [SkipListIter.value, SkipListIter.is_valid], ?_⟩
      intro i hi
      cases hi
      exact ⟨rfl, rfl⟩

/-- C10 witness: the accessor contract evaluated at an invalid cursor. -/
theorem c10_witness :
    SkipListIter.key skipListNew ⟨none⟩ = none ↔
      SkipListIter.is_valid (⟨none⟩ : SkipListIter) = false :=
  (c10_key_value_none_iff_invalid skipListNew ⟨none⟩).1

/-- C8 counterexample: the claim says that after the list is exhausted the
iterator merely stays invalid, but SkipListIter::next starts with
assert!(self.is_valid()) (skip_list.rs line 330): calling next on an
already-invalid cursor panics (modelled: no successor state exists), so the
N+1-th next after seek_to_first aborts instead of keeping the cursor
invalid. -/
theorem c8_claim_counterexample :
    ¬ ∃ it', SkipListIter.next skipListNew ⟨none⟩ = some it' := by
  rintro ⟨it', h⟩
  simp [SkipListIter.next] at h

/-- C8 (amended): after seek_to_first on a list holding N distinct-keyed
insertions, the first N-1 calls to next leave the cursor valid, the N-th
call leaves it invalid (null), and the N+1-th call panics on
assert!(is_valid()) - modelled as nextN returning none. -/
theorem c8_next_exhaustion (ops : List (Int × Int × Nat))
    (hh : heightsOk ops) (hd : (opKeys ops).Nodup) :
    ∃ s it0, insertList ops = .ok s ∧
      SkipListIter.seek_to_first s = some it0 ∧
      (∀ m, m < ops.length → ∃ itm, nextN s m it0 = some itm ∧
        SkipListIter.is_valid itm = true) ∧
      (∃ itN, nextN s ops.length it0 = some itN ∧
        SkipListIter.is_valid itN = false) ∧
      nextN s (ops.length + 1) it0 = none := by
  rcases insertList_spec ops hh hd with ⟨s, ch, hrun, hwf, hInv, hlen, hperm⟩
  have hlen0 : (ch 0).length = ops.length := by
    have h1 := hperm.length_eq
    unfold pairsOf opPairs at h1
    simpa using h1
  have hN := nextN_chain s (ch 0) 0 (hInv.chain 0)
  have hNfull := hN (ch 0).length (le_refl _)
  rw [List.drop_length, hlen0] at hNfull
  refine ⟨s, ⟨get_next s 0 0⟩, hrun, seek_to_first_eq s, ?_, ⟨⟨none⟩, hNfull, rfl⟩, ?_⟩
  · intro m hm
    refine ⟨⟨((ch 0).drop m).head?⟩, hN m (by omega), ?_⟩
    cases hd2 : (ch 0).drop m with
    | nil =>
      exfalso
      have := congrArg List.length hd2
      rw [List.length_drop] at this
      simp at this
      omega
    | cons a as => rfl
  · rw [nextN_succ, hNfull]
    rfl

/-- C8 witness: the amended exhaustion behaviour on a one-element list. -/
theorem c8_witness :
    ∃ s it0, insertList [(1, 5, 1)] = .ok s ∧
      SkipListIter.seek_to_first s = some it0 ∧
      (∀ m, m < 1 → ∃ itm, nextN s m it0 = some itm ∧
        SkipListIter.is_valid itm = true) ∧
      (∃ itN, nextN s 1 it0 = some itN ∧
        SkipListIter.is_valid itN = false) ∧
      nextN s 2 it0 = none := by
  have h := c8_next_exhaustion [(1, 5, 1)] (by unfold heightsOk; decide) (by decide)
  simpa using h

/-- C4: for any distinct-keyed insertion sequence, seek(k)
(find_near(Included k, forward)) lands exactly on the node with key k when
k is present; when k is absent it lands on the node with the least key
greater than k, or becomes invalid when every stored key is below k. -/
theorem c4_seek_lands_correctly (ops : List (Int × Int × Nat)) (k : Int)
    (hh : heightsOk ops) (hd : (opKeys ops).Nodup) :
    ∃ s, insertList ops = .ok s ∧
      (k ∈ opKeys ops → ∃ it, SkipListIter.seek s k = some it ∧
        SkipListIter.key s it = some k) ∧
      (k ∉ opKeys ops →
        ((∀ k' ∈ opKeys ops, k' < k) → SkipListIter.seek s k = some ⟨none⟩) ∧
        ((∃ k' ∈ opKeys ops, k < k') → ∃ it k', SkipListIter.seek s k = some it ∧
          SkipListIter.key s it = some k' ∧ k' ∈ opKeys ops ∧ k < k' ∧
          (∀ k'' ∈ opKeys ops, k < k'' → k' ≤ k''))) := by
  rcases insertList_spec ops hh hd with ⟨s, ch, hrun, hwf, hInv, hlen, hperm⟩
  have hkp := keys_perm_of_pairs_perm hperm
  have hseek := seek_spec s ch k hInv hwf
  refine ⟨s, hrun, ?_, ?_⟩
  · intro hkmem
    rcases List.mem_map.1 (hkp.mem_iff.2 hkmem) with ⟨x, hxmem, hxkey⟩
    have hhead := highSeg_head_eq (hInv.sorted 0) hxmem hxkey
    refine ⟨⟨some x⟩, by rw [hseek, hhead], ?_⟩
    rw [show SkipListIter.key s ⟨some x⟩ = some (keyOf s x) from rfl, hxkey]
  · intro hknot
    constructor
    · intro hall
      have hempty : highSeg s k (ch 0) = [] := by
        refine dropWhile_all _ _ ?_
        intro x hx
        exact decide_eq_true (hall (keyOf s x)
          (hkp.mem_iff.1 (List.mem_map_of_mem _ hx)))
      rw [hseek, hempty]
      rfl
    · rintro ⟨k', hk'mem, hk'gt⟩
      rcases List.mem_map.1 (hkp.mem_iff.2 hk'mem) with ⟨z, hzmem, hzkey⟩
      have hzhigh : z ∈ highSeg s k (ch 0) := by
        have hz2 : z ∈ lowSeg s k (ch 0) ++ highSeg s k (ch 0) := by
          rw [lowSeg_append_highSeg]
          exact hzmem
        rcases List.mem_append.1 hz2 with hzl | hzh
        · have hlt := mem_lowSeg_lt hzl
          rw [hzkey] at hlt
          exact absurd hlt (by omega)
        · exact hzh
      cases hhs : highSeg s k (ch 0) with
      | nil =>
        rw [hhs] at hzhigh
        cases hzhigh
      | cons y ys =>
        have hynotlt : ¬ keyOf s y < k := highSeg_head_not_lt hhs
        have hymem : y ∈ ch 0 := highSeg_subset y (by rw [hhs]; simp)
        have hykeymem : keyOf s y ∈ opKeys ops :=
          hkp.mem_iff.1 (List.mem_map_of_mem _ hymem)
        have hyne : keyOf s y ≠ k := fun hcontra =>
          hknot (hcontra ▸ hykeymem)
        have hygt : k < keyOf s y := by
          rcases lt_trichotomy (keyOf s y) k with h | h | h
          · exact absurd h hynotlt
          · exact absurd h hyne
          · exact h
        have hsorthigh : (highSeg s k (ch 0)).Pairwise
            (fun a b => keyOf s a < keyOf s b) := by
          unfold highSeg
          exact (hInv.sorted 0).sublist (List.dropWhile_sublist _)
        refine ⟨⟨some y⟩, keyOf s y, by rw [hseek, hhs]; rfl, rfl, hykeymem, hygt, ?_⟩
        intro k2 hk2mem hk2gt
        rcases List.mem_map.1 (hkp.mem_iff.2 hk2mem) with ⟨w, hwmem, hwkey⟩
        have hwhigh : w ∈ highSeg s k (ch 0) := by
          have hw2 : w ∈ lowSeg s k (ch 0) ++ highSeg s k (ch 0) := by
            rw [lowSeg_append_highSeg]
            exact hwmem
          rcases List.mem_append.1 hw2 with hwl | hwh
          · have hlt := mem_lowSeg_lt hwl
            rw [hwkey] at hlt
            exact absurd hlt (by omega)
          · exact hwh
        have hle := sorted_head_le hsorthigh hhs hwhigh
        rw [hwkey] at hle
        exact hle

/-- C4 witness: seek behaviour on the sequence inserting keys 1 and 3,
probed at the present key 3. -/
theorem c4_witness :
    ∃ s, insertList [(1, 10, 1), (3, 30, 1)] = .ok s ∧
      ((3 : Int) ∈ opKeys [(1, 10, 1), (3, 30, 1)] → ∃ it,
        SkipListIter.seek s 3 = some it ∧ SkipListIter.key s it = some 3) ∧
      ((3 : Int) ∉ opKeys [(1, 10, 1), (3, 30, 1)] →
        ((∀ k' ∈ opKeys [(1, 10, 1), (3, 30, 1)], k' < 3) →
          SkipListIter.seek s 3 = some ⟨none⟩) ∧
        ((∃ k' ∈ opKeys [(1, 10, 1), (3, 30, 1)], 3 < k') → ∃ it k',
          SkipListIter.seek s 3 = some it ∧ SkipListIter.key s it = some k' ∧
          k' ∈ opKeys [(1, 10, 1), (3, 30, 1)] ∧ 3 < k' ∧
          (∀ k'' ∈ opKeys [(1, 10, 1), (3, 30, 1)], 3 < k'' → k' ≤ k''))) :=
  c4_seek_lands_correctly [(1, 10, 1), (3, 30, 1)] 3
    (by unfold heightsOk; decide) (by decide)

/-- C7: for a key k that is present and not the smallest, seeking to k,
stepping prev, then stepping next returns the cursor to the node with
key k (prev goes to the greatest key below k; next follows the level-0
link back). -/
theorem c7_prev_next_roundtrip (ops : List (Int × Int × Nat)) (k : Int)
    (hh : heightsOk ops) (hd : (opKeys ops).Nodup)
    (hk : k ∈ opKeys ops) (hnotmin : ∃ k' ∈ opKeys ops, k' < k) :
    ∃ s it1 it2 it3, insertList ops = .ok s ∧
      SkipListIter.seek s k = some it1 ∧
      SkipListIter.prev s it1 = some it2 ∧
      SkipListIter.next s it2 = some it3 ∧
      SkipListIter.key s it3 = some k := by
  rcases insertList_spec ops hh hd with ⟨s, ch, hrun, hwf, hInv, hlen, hperm⟩
  have hkp := keys_perm_of_pairs_perm hperm
  have hseek := seek_spec s ch k hInv hwf
  rcases List.mem_map.1 (hkp.mem_iff.2 hk) with ⟨x, hxmem, hxkey⟩
  have hhead := highSeg_head_eq (hInv.sorted 0) hxmem hxkey
  rcases hnotmin with ⟨k', hk'mem, hk'lt⟩
  rcases List.mem_map.1 (hkp.mem_iff.2 hk'mem) with ⟨z, hzmem, hzkey⟩
  have hzlow : z ∈ lowSeg s k (ch 0) := by
    have hz2 : z ∈ lowSeg s k (ch 0) ++ highSeg s k (ch 0) := by
      rw [lowSeg_append_highSeg]
      exact hzmem
    rcases List.mem_append.1 hz2 with hzl | hzh
    · exact hzl
    · exfalso
      cases hhs : highSeg s k (ch 0) with
      | nil =>
        rw [hhs] at hzh
        cases hzh
      | cons y ys =>
        have hynotlt : ¬ keyOf s y < k := highSeg_head_not_lt hhs
        have hsorthigh : (highSeg s k (ch 0)).Pairwise
            (fun a b => keyOf s a < keyOf s b) := by
          unfold highSeg
          exact (hInv.sorted 0).sublist (List.dropWhile_sublist _)
        have hyz := sorted_head_le hsorthigh hhs hzh
        rw [hzkey] at hyz
        exact hynotlt (lt_of_le_of_lt hyz hk'lt)
  have hlowne : lowSeg s k (ch 0) ≠ [] := by
    intro hcontra
    rw [hcontra] at hzlow
    cases hzlow
  have hlast := getLast?_of_ne_nil hlowne 0
  have hprev := prev_spec s ch hInv hwf x
  rw [hxkey] at hprev
  have hchain0 : isChain s 0 0 (lowSeg s k (ch 0) ++ highSeg s k (ch 0)) := by
    rw [lowSeg_append_highSeg]
    exact hInv.chain 0
  have hnextp : get_next s ((lowSeg s k (ch 0)).getLastD 0) 0 =
      (highSeg s k (ch 0)).head? := isChain_next_at _ hchain0
  refine ⟨s, ⟨some x⟩, ⟨some ((lowSeg s k (ch 0)).getLastD 0)⟩, ⟨some x⟩,
    hrun, by rw [hseek, hhead], by rw [hprev, hlast], ?_, ?_⟩
  · show some (⟨get_next s ((lowSeg s k (ch 0)).getLastD 0) 0⟩ : SkipListIter) =
        some ⟨some x⟩
    rw [hnextp, hhead]
  · rw [show SkipListIter.key s ⟨some x⟩ = some (keyOf s x) from rfl, hxkey]

/-- C7 witness: the roundtrip evaluated on keys 1 and 2 at k = 2. -/
theorem c7_witness :
    ∃ s it1 it2 it3, insertList [(1, 10, 1), (2, 20, 1)] = .ok s ∧
      SkipListIter.seek s 2 = some it1 ∧
      SkipListIter.prev s it1 = some it2 ∧
      SkipListIter.next s it2 = some it3 ∧
      SkipListIter.key s it3 = some 2 :=
  c7_prev_next_roundtrip [(1, 10, 1), (2, 20, 1)] 2
    (by unfold heightsOk; decide) (by decide) (by decide) (by decide)

end SkipRepo